import Mathlib

/-!
Verification development for the refcollector citation-resolution pipeline.

The Python sources (tex_scanner.py, collect_refs.py, pdf_lineno.py) are
shallowly embedded as Lean functions over lists of characters.  Text is
modelled as `List Char`; the regular expressions of the source are embedded
as deterministic matching functions reproducing the backtracking behaviour
of the concrete patterns on the relevant inputs.  External collaborators
(file-system path canonicalisation, the synctex binary, the PDF page
geometry reader and the latex-to-unicode table) are taken as parameters.
-/

namespace Refc

abbrev Chars := List Char

def str (s : String) : Chars := s.toList

/-- Whitespace characters as matched by the source's `\s` regex class and
by Python's `str.strip` on the ASCII inputs the tool processes. -/
def isWs (c : Char) : Bool :=
  c = ' ' || c = '\t' || c = '\n' || c = '\r' || c = '\x0b' || c = '\x0c'

/-- Word characters for the `\b` boundaries in the `\iffalse` / `\fi`
patterns (ASCII fragment of the regex `\w` class). -/
def isWord (c : Char) : Bool :=
  c.isAlphanum || c = '_'

/-- Right half of Python `str.strip`: drop trailing whitespace. -/
def rstrip (l : Chars) : Chars := (l.reverse.dropWhile isWs).reverse

/-- Python `str.strip`: drop leading and trailing whitespace. -/
def pystrip (l : Chars) : Chars := rstrip (l.dropWhile isWs)

/-- Match a literal word at the head of the input, returning the rest. -/
def matchChars : Chars → Chars → Option Chars
  | [], rest => some rest
  | _, [] => none
  | w :: ws, c :: cs => if c = w then matchChars ws cs else none

/-- Case-insensitive variant of `matchChars`, for the `re.IGNORECASE`
patterns of the source. -/
def matchCharsCI : Chars → Chars → Option Chars
  | [], rest => some rest
  | _, [] => none
  | w :: ws, c :: cs => if c.toLower = w.toLower then matchCharsCI ws cs else none

theorem matchChars_decomp :
    ∀ w cs rest, matchChars w cs = some rest →
      ∃ u, cs = u ++ rest ∧ u.length = w.length := by
  intro w
  induction w with
  | nil =>
    intro cs rest h
    simp [matchChars] at h
    exact ⟨[], by simp [h]⟩
  | cons a as ih =>
    intro cs rest h
    cases cs with
    | nil => simp [matchChars] at h
    | cons c cs' =>
      simp only [matchChars] at h
      by_cases hc : c = a
      · simp [hc] at h
        obtain ⟨u, hu, hlen⟩ := ih cs' rest h
        exact ⟨c :: u, by simp [hu], by simp [hlen]⟩
      · simp [hc] at h

theorem matchCharsCI_decomp :
    ∀ w cs rest, matchCharsCI w cs = some rest →
      ∃ u, cs = u ++ rest ∧ u.length = w.length := by
  intro w
  induction w with
  | nil =>
    intro cs rest h
    simp [matchCharsCI] at h
    exact ⟨[], by simp [h]⟩
  | cons a as ih =>
    intro cs rest h
    cases cs with
    | nil => simp [matchCharsCI] at h
    | cons c cs' =>
      simp only [matchCharsCI] at h
      by_cases hc : c.toLower = a.toLower
      · simp [hc] at h
        obtain ⟨u, hu, hlen⟩ := ih cs' rest h
        exact ⟨c :: u, by simp [hu], by simp [hlen]⟩
      · simp [hc] at h

theorem matchChars_length_le :
    ∀ w cs rest, matchChars w cs = some rest → rest.length ≤ cs.length := by
  intro w cs rest h
  obtain ⟨u, hu, _⟩ := matchChars_decomp w cs rest h
  subst hu; simp

theorem matchCharsCI_length_le :
    ∀ w cs rest, matchCharsCI w cs = some rest → rest.length ≤ cs.length := by
  intro w cs rest h
  obtain ⟨u, hu, _⟩ := matchCharsCI_decomp w cs rest h
  subst hu; simp

theorem matchCharsCI_length_lt :
    ∀ w cs rest, w ≠ [] → matchCharsCI w cs = some rest → rest.length < cs.length := by
  intro w cs rest hw h
  obtain ⟨u, hu, hlen⟩ := matchCharsCI_decomp w cs rest h
  subst hu
  have : 0 < u.length := by
    rw [hlen]
    exact List.length_pos.mpr hw
  simp; omega

/-!
File inclusion discovery: the regex
`\\(?:(?:input)|(?:include)|(?:subfile))\s*\{([^}]+)\}` with `re.IGNORECASE`,
applied with `finditer` over the raw file text
(`_INCLUDE_RE` in tex_scanner.py and collect_refs.py).
-/

/-- Generic decomposition of a list along `dropWhile`. -/
theorem span_decomp {α : Type} (p : α → Bool) (l : List α) (d : α) (rest : List α)
    (h : l.dropWhile p = d :: rest) :
    l = l.takeWhile p ++ d :: rest ∧ p d = false := by
  constructor
  · conv_lhs => rw [← List.takeWhile_append_dropWhile p l]
    rw [h]
  · have := List.head?_dropWhile_not p l
    rw [h] at this
    simpa using this

theorem length_dropWhile_le {α : Type} (p : α → Bool) (l : List α) :
    (l.dropWhile p).length ≤ l.length := by
  have h := congrArg List.length (List.takeWhile_append_dropWhile p l)
  rw [List.length_append] at h
  omega

/-- The regex class `[^}]` as a Boolean predicate. -/
def notRB (c : Char) : Bool := c ≠ '}'

/-- Mandatory brace argument with nonempty content: `\{([^}]+)\}`.
Returns the captured group and the text after the closing brace. -/
def braceArgNonempty (cs : Chars) : Option (Chars × Chars) :=
  match cs with
  | [] => none
  | c :: cs' =>
    if c = '{' then
      match cs'.dropWhile notRB with
      | [] => none
      | _ :: r =>
        if cs'.takeWhile notRB = [] then none else some (cs'.takeWhile notRB, r)
    else none

theorem braceArgNonempty_decomp :
    ∀ cs g r, braceArgNonempty cs = some (g, r) →
      cs = '{' :: g ++ '}' :: r ∧ g ≠ [] ∧ '}' ∉ g := by
  intro cs g r h
  match cs with
  | [] => simp [braceArgNonempty] at h
  | c :: cs' =>
    by_cases hc : c = '{'
    case neg => simp [braceArgNonempty, hc] at h
    case pos =>
      subst hc
      cases hdrop : cs'.dropWhile notRB with
      | nil => simp [braceArgNonempty, hdrop] at h
      | cons d rest =>
        by_cases hg0 : cs'.takeWhile notRB = []
        · simp [braceArgNonempty, hdrop, hg0] at h
        · have h' : cs'.takeWhile notRB = g ∧ rest = r := by
            have := h
            simp only [braceArgNonempty, hdrop, hg0, if_neg, if_true] at this
            simp at this
            exact this
          obtain ⟨hg', hr⟩ := h'
          obtain ⟨hsplit, hd⟩ := span_decomp notRB cs' d rest hdrop
          have hdc : d = '}' := by
            simp [notRB] at hd
            exact hd
          refine ⟨?_, ?_, ?_⟩
          · rw [hsplit, hg', hr, hdc]; simp
          · rw [← hg']; exact hg0
          · rw [← hg']
            intro hmem
            have := List.mem_takeWhile_imp hmem
            simp [notRB] at this

theorem braceArgNonempty_length :
    ∀ cs g r, braceArgNonempty cs = some (g, r) → r.length + 2 ≤ cs.length := by
  intro cs g r h
  obtain ⟨hcs, hg, _⟩ := braceArgNonempty_decomp cs g r h
  subst hcs
  have : 0 < g.length := List.length_pos.mpr hg
  simp


/-- One alternative of the include regex: a directive word, optional
whitespace, then the brace argument. -/
def tryIncludeWord (w : Chars) (cs : Chars) : Option (Chars × Chars) :=
  match matchCharsCI w cs with
  | none => none
  | some r => braceArgNonempty (r.dropWhile isWs)

theorem tryIncludeWord_length :
    ∀ w cs g r, tryIncludeWord w cs = some (g, r) → r.length < cs.length := by
  intro w cs g r h
  simp only [tryIncludeWord] at h
  cases hm : matchCharsCI w cs with
  | none => rw [hm] at h; simp at h
  | some m =>
    rw [hm] at h
    have h1 := matchCharsCI_length_le w cs m hm
    have h2 := braceArgNonempty_length _ g r h
    have h3 : (m.dropWhile isWs).length ≤ m.length := length_dropWhile_le _ _
    omega

/-- Attempt to match the include regex at the current position.  On
success returns `(directive argument, rest after the match)`. -/
def tryIncludeAt (cs : Chars) : Option (Chars × Chars) :=
  match cs with
  | [] => none
  | c :: cs' =>
    if c = '\\' then
      match tryIncludeWord (str "input") cs' with
      | some res => some res
      | none =>
        match tryIncludeWord (str "include") cs' with
        | some res => some res
        | none => tryIncludeWord (str "subfile") cs'
    else none

theorem tryIncludeAt_ne_backslash :
    ∀ c cs, c ≠ '\\' → tryIncludeAt (c :: cs) = none := by
  intro c cs hc
  simp [tryIncludeAt, hc]

theorem tryIncludeAt_length :
    ∀ cs g r, tryIncludeAt cs = some (g, r) → r.length < cs.length := by
  intro cs g r h
  match cs with
  | [] => simp [tryIncludeAt] at h
  | c :: cs' =>
    simp only [tryIncludeAt] at h
    by_cases hc : c = '\\'
    · simp only [hc, if_true] at h
      cases h1 : tryIncludeWord (str "input") cs' with
      | some res =>
        rw [h1] at h; simp at h
        have := tryIncludeWord_length _ cs' g r (by rw [h1, h])
        simp; omega
      | none =>
        rw [h1] at h
        cases h2 : tryIncludeWord (str "include") cs' with
        | some res =>
          rw [h2] at h; simp at h
          have := tryIncludeWord_length _ cs' g r (by rw [h2, h])
          simp; omega
        | none =>
          rw [h2] at h
          have := tryIncludeWord_length _ cs' g r h
          simp; omega
    · simp [hc] at h

/-- Scanning loop for include directives (fuel-indexed; the fuel is
instantiated with the text length in `extractIncludes`). -/
def extractIncludesGo : Nat → Chars → List Chars
  | 0, _ => []
  | fuel + 1, l =>
    match tryIncludeAt l with
    | some (a, rest) => a :: extractIncludesGo fuel rest
    | none =>
      match l with
      | [] => []
      | _ :: cs => extractIncludesGo fuel cs

/-- All include-directive arguments of a text, in order of appearance
(the `_INCLUDE_RE.finditer(raw)` loops of tex_scanner.py and
collect_refs.py). -/
def extractIncludes (l : Chars) : List Chars := extractIncludesGo (l.length + 1) l

theorem extractIncludesGo_irrel :
    ∀ f1 f2 l, l.length < f1 → l.length < f2 →
      extractIncludesGo f1 l = extractIncludesGo f2 l := by
  intro f1
  induction f1 with
  | zero => intro f2 l h1 _; omega
  | succ f ih =>
    intro f2 l h1 h2
    cases f2 with
    | zero => omega
    | succ f2' =>
      simp only [extractIncludesGo]
      cases hm : tryIncludeAt l with
      | some res =>
        obtain ⟨a, rest⟩ := res
        have hlt := tryIncludeAt_length l a rest hm
        simp only []
        rw [ih f2' rest (by omega) (by omega)]
      | none =>
        cases l with
        | nil => simp
        | cons c cs =>
          exact ih f2' cs (by simp at h1 ⊢; omega) (by simp at h2 ⊢; omega)

theorem extractIncludes_cons_none :
    ∀ c cs, tryIncludeAt (c :: cs) = none →
      extractIncludes (c :: cs) = extractIncludes cs := by
  intro c cs h
  simp only [extractIncludes, List.length_cons, extractIncludesGo, h]

theorem extractIncludes_clean_append :
    ∀ u v, '\\' ∉ u → extractIncludes (u ++ v) = extractIncludes v := by
  intro u
  induction u with
  | nil => intro v _; simp
  | cons c cs ih =>
    intro v hc
    have hcne : c ≠ '\\' := by intro h; exact hc (by simp [h])
    have hcs : '\\' ∉ cs := by intro h; exact hc (by simp [h])
    rw [List.cons_append]
    rw [extractIncludes_cons_none c (cs ++ v) (tryIncludeAt_ne_backslash c (cs ++ v) hcne)]
    exact ih v hcs

/-!
Citation commands: the regex `_CITE_PATTERN` shared by tex_scanner.py and
collect_refs.py,

  `\\(?:cite|citet|citep|Cite|Citet|Citep|parencite|textcite|autocite|
      smartcite|footcite|footcitetext|citeauthor|Citeauthor)\*?
   (?:\s*\[[^\]]*\]){0,2}\s*\{([^}]*)\}`

(case sensitive, `re.VERBOSE`).  The alternation is tried left to right
with full backtracking into the continuation, which the embedding
reproduces by trying each command word with the whole tail parser.
-/

/-- Brace argument with possibly empty content: `\{([^}]*)\}`. -/
def braceArgAny (cs : Chars) : Option (Chars × Chars) :=
  match cs with
  | [] => none
  | c :: cs' =>
    if c = '{' then
      match cs'.dropWhile notRB with
      | [] => none
      | _ :: r => some (cs'.takeWhile notRB, r)
    else none

theorem braceArgAny_decomp :
    ∀ cs g r, braceArgAny cs = some (g, r) →
      cs = '{' :: g ++ '}' :: r ∧ '}' ∉ g := by
  intro cs g r h
  match cs with
  | [] => simp [braceArgAny] at h
  | c :: cs' =>
    by_cases hc : c = '{'
    case neg => simp [braceArgAny, hc] at h
    case pos =>
      subst hc
      cases hdrop : cs'.dropWhile notRB with
      | nil => simp [braceArgAny, hdrop] at h
      | cons d rest =>
        have h' : cs'.takeWhile notRB = g ∧ rest = r := by
          have := h
          simp only [braceArgAny, hdrop] at this
          simp at this
          exact this
        obtain ⟨hg', hr⟩ := h'
        obtain ⟨hsplit, hd⟩ := span_decomp notRB cs' d rest hdrop
        have hdc : d = '}' := by
          simp [notRB] at hd
          exact hd
        constructor
        · rw [hsplit, hg', hr, hdc]; simp
        · rw [← hg']
          intro hmem
          have := List.mem_takeWhile_imp hmem
          simp [notRB] at this

/-- The `\s*\{([^}]*)\}` suffix of the cite pattern. -/
def citeBrace (cs : Chars) : Option (Chars × Chars) :=
  braceArgAny (cs.dropWhile isWs)

theorem citeBrace_decomp :
    ∀ cs g r, citeBrace cs = some (g, r) →
      ∃ u, cs = u ++ '{' :: g ++ '}' :: r ∧ '}' ∉ g := by
  intro cs g r h
  simp only [citeBrace] at h
  obtain ⟨hd, hnb⟩ := braceArgAny_decomp _ g r h
  refine ⟨cs.takeWhile isWs, ?_, hnb⟩
  conv_lhs => rw [← List.takeWhile_append_dropWhile isWs cs]
  rw [hd]
  simp

/-- The regex class `[^\]]` as a Boolean predicate. -/
def notRBk (c : Char) : Bool := c ≠ ']'

/-- Consume exactly `k` optional-argument groups `\s*\[[^\]]*\]`. -/
def tryBrackets : Nat → Chars → Option Chars
  | 0, cs => some cs
  | k + 1, cs =>
    match cs.dropWhile isWs with
    | [] => none
    | c :: r =>
      if c = '[' then
        match r.dropWhile notRBk with
        | [] => none
        | _ :: r2 => tryBrackets k r2
      else none

theorem tryBrackets_decomp :
    ∀ k cs r, tryBrackets k cs = some r → ∃ u, cs = u ++ r := by
  intro k
  induction k with
  | zero =>
    intro cs r h
    simp [tryBrackets] at h
    exact ⟨[], by simp [h]⟩
  | succ k ih =>
    intro cs r h
    simp only [tryBrackets] at h
    cases hdw : cs.dropWhile isWs with
    | nil => rw [hdw] at h; simp at h
    | cons c r1 =>
      rw [hdw] at h
      by_cases hc : c = '['
      · simp only [hc, if_true] at h
        cases hd2 : r1.dropWhile notRBk with
        | nil => rw [hd2] at h; simp at h
        | cons d r2 =>
          rw [hd2] at h
          obtain ⟨u, hu⟩ := ih r2 r h
          obtain ⟨hsplit2, _⟩ := span_decomp notRBk r1 d r2 hd2
          refine ⟨cs.takeWhile isWs ++ c :: (r1.takeWhile notRBk ++ [d]) ++ u, ?_⟩
          conv_lhs => rw [← List.takeWhile_append_dropWhile isWs cs, hdw, hsplit2, hu]
          simp
      · simp [hc] at h

/-- Helper for `tryCiteTail`: the one-group and zero-group alternatives. -/
def tryCiteTailOneOrZero (cs : Chars) : Option (Chars × Chars) :=
  match (tryBrackets 1 cs) with
  | some r =>
    match citeBrace r with
    | some res => some res
    | none => citeBrace cs
  | none => citeBrace cs

/-- The tail of the cite pattern after the optional star: two, one or zero
bracket groups (tried greedily in that preference order, as the regex
engine does), then the mandatory brace group. -/
def tryCiteTail (cs : Chars) : Option (Chars × Chars) :=
  match (tryBrackets 2 cs) with
  | some r =>
    match citeBrace r with
    | some res => some res
    | none => tryCiteTailOneOrZero cs
  | none => tryCiteTailOneOrZero cs

theorem tryCiteTailOneOrZero_decomp :
    ∀ cs g r, tryCiteTailOneOrZero cs = some (g, r) →
      ∃ u, cs = u ++ '{' :: g ++ '}' :: r ∧ '}' ∉ g := by
  intro cs g r h
  simp only [tryCiteTailOneOrZero] at h
  split at h
  · rename_i r1 hb
    split at h
    · rename_i res hcb
      simp at h
      rw [h] at hcb
      obtain ⟨u1, hu1⟩ := tryBrackets_decomp 1 cs r1 hb
      obtain ⟨u2, hu2, hnb⟩ := citeBrace_decomp r1 g r hcb
      exact ⟨u1 ++ u2, by rw [hu1, hu2]; simp, hnb⟩
    · exact citeBrace_decomp cs g r h
  · exact citeBrace_decomp cs g r h

theorem tryCiteTail_decomp :
    ∀ cs g r, tryCiteTail cs = some (g, r) →
      ∃ u, cs = u ++ '{' :: g ++ '}' :: r ∧ '}' ∉ g := by
  intro cs g r h
  simp only [tryCiteTail] at h
  split at h
  · rename_i r1 hb
    split at h
    · rename_i res hcb
      simp at h
      rw [h] at hcb
      obtain ⟨u1, hu1⟩ := tryBrackets_decomp 2 cs r1 hb
      obtain ⟨u2, hu2, hnb⟩ := citeBrace_decomp r1 g r hcb
      exact ⟨u1 ++ u2, by rw [hu1, hu2]; simp, hnb⟩
    · exact tryCiteTailOneOrZero_decomp cs g r h
  · exact tryCiteTailOneOrZero_decomp cs g r h

/-- One alternative of the cite pattern: a command word, then `\*?`
(greedy, with backtracking), then the pattern tail. -/
def tryCiteName (w : Chars) (cs : Chars) : Option (Chars × Chars) :=
  match matchChars w cs with
  | none => none
  | some r =>
    match r with
    | [] => tryCiteTail r
    | c :: r' =>
      if c = '*' then
        match tryCiteTail r' with
        | some res => some res
        | none => tryCiteTail r
      else tryCiteTail r

theorem tryCiteName_decomp :
    ∀ w cs g r, tryCiteName w cs = some (g, r) →
      ∃ u, cs = u ++ '{' :: g ++ '}' :: r ∧ '}' ∉ g := by
  intro w cs g r h
  simp only [tryCiteName] at h
  split at h
  case h_1 => simp at h
  case h_2 m hm =>
    obtain ⟨u0, hu0, _⟩ := matchChars_decomp w cs m hm
    have result : ∃ u, m = u ++ '{' :: g ++ '}' :: r ∧ '}' ∉ g := by
      split at h
      · exact tryCiteTail_decomp _ g r h
      · rename_i c m'
        by_cases hc : c = '*'
        · rw [if_pos hc] at h
          split at h
          · rename_i res ht
            simp at h
            rw [h] at ht
            obtain ⟨u, hu, hnb⟩ := tryCiteTail_decomp m' g r ht
            refine ⟨c :: u, ?_, hnb⟩
            rw [hu]
            simp
          · obtain ⟨u, hu, hnb⟩ := tryCiteTail_decomp (c :: m') g r h
            exact ⟨u, hu, hnb⟩
        · rw [if_neg hc] at h
          exact tryCiteTail_decomp (c :: m') g r h
    obtain ⟨u, hu, hnb⟩ := result
    refine ⟨u0 ++ u, ?_, hnb⟩
    rw [hu0, hu]
    simp

/-- The citation command words of `_CITE_PATTERN`, in alternation order. -/
def citeNames : List Chars :=
  [str "cite", str "citet", str "citep", str "Cite", str "Citet", str "Citep",
   str "parencite", str "textcite", str "autocite", str "smartcite",
   str "footcite", str "footcitetext", str "citeauthor", str "Citeauthor"]

/-- First alternative of the name list that matches with the whole tail. -/
def tryCiteNames : List Chars → Chars → Option (Chars × Chars)
  | [], _ => none
  | w :: ws, cs =>
    match tryCiteName w cs with
    | some res => some res
    | none => tryCiteNames ws cs

theorem tryCiteNames_decomp :
    ∀ ws cs g r, tryCiteNames ws cs = some (g, r) →
      ∃ u, cs = u ++ '{' :: g ++ '}' :: r ∧ '}' ∉ g := by
  intro ws
  induction ws with
  | nil => intro cs g r h; simp [tryCiteNames] at h
  | cons w ws ih =>
    intro cs g r h
    simp only [tryCiteNames] at h
    cases hw : tryCiteName w cs with
    | some res =>
      rw [hw] at h
      simp at h
      rw [h] at hw
      exact tryCiteName_decomp w cs g r hw
    | none =>
      rw [hw] at h
      exact ih cs g r h

/-- Attempt to match the full cite pattern at the current position.
On success returns `(key-list group, rest after the match)`. -/
def tryCiteAt (cs : Chars) : Option (Chars × Chars) :=
  match cs with
  | [] => none
  | c :: cs' =>
    if c = '\\' then tryCiteNames citeNames cs' else none

theorem tryCiteAt_ne_backslash :
    ∀ c cs, c ≠ '\\' → tryCiteAt (c :: cs) = none := by
  intro c cs hc
  simp [tryCiteAt, hc]

theorem tryCiteAt_decomp :
    ∀ cs g r, tryCiteAt cs = some (g, r) →
      ∃ pre, cs = pre ++ '{' :: g ++ '}' :: r ∧ 1 ≤ pre.length ∧ '}' ∉ g := by
  intro cs g r h
  match cs with
  | [] => simp [tryCiteAt] at h
  | c :: cs' =>
    simp only [tryCiteAt] at h
    by_cases hc : c = '\\'
    · simp only [hc, if_true] at h
      obtain ⟨u, hu, hnb⟩ := tryCiteNames_decomp citeNames cs' g r h
      refine ⟨c :: u, ?_, by simp, hnb⟩
      rw [hu]
      simp
    · simp [hc] at h

theorem tryCiteAt_length :
    ∀ cs g r, tryCiteAt cs = some (g, r) → r.length < cs.length := by
  intro cs g r h
  obtain ⟨pre, hcs, hpre, _⟩ := tryCiteAt_decomp cs g r h
  rw [hcs]
  simp
  omega

/-! Helper lemmas about `rstrip` and `pystrip`. -/

theorem dropWhile_idem {α : Type} (p : α → Bool) (l : List α) :
    (l.dropWhile p).dropWhile p = l.dropWhile p := by
  cases hdw : l.dropWhile p with
  | nil => simp
  | cons c cs =>
    have := (span_decomp p l c cs hdw).2
    simp [List.dropWhile_cons, this]

theorem rstrip_decomp (l : Chars) :
    ∃ t, l = rstrip l ++ t ∧ ∀ c ∈ t, isWs c = true := by
  refine ⟨(l.reverse.takeWhile isWs).reverse, ?_, ?_⟩
  · conv_lhs => rw [← l.reverse_reverse]
    conv_lhs => rw [← List.takeWhile_append_dropWhile isWs l.reverse]
    rw [List.reverse_append]
    rfl
  · intro c hc
    rw [List.mem_reverse] at hc
    exact List.mem_takeWhile_imp hc

theorem rstrip_idem (l : Chars) : rstrip (rstrip l) = rstrip l := by
  unfold rstrip
  rw [List.reverse_reverse, dropWhile_idem]

theorem rstrip_head (c : Char) (t : Chars) :
    rstrip (c :: t) = [] ∨ ∃ t', rstrip (c :: t) = c :: t' := by
  obtain ⟨w, hw, _⟩ := rstrip_decomp (c :: t)
  cases hr : rstrip (c :: t) with
  | nil => exact Or.inl rfl
  | cons d t' =>
    right
    rw [hr] at hw
    have : c = d := by
      have := congrArg (fun l => List.headD l ' ') hw
      simpa using this
    exact ⟨t', by rw [← this]⟩

theorem pystrip_eq_of_head_not_ws (c : Char) (t : Chars) (hc : isWs c = false) :
    pystrip (c :: t) = rstrip (c :: t) := by
  unfold pystrip
  rw [List.dropWhile_cons_of_neg (by simp [hc])]

theorem pystrip_of_rstrip_head_not_ws (l : Chars) (c : Char) (t : Chars)
    (hl : rstrip l = c :: t) (hc : isWs c = false) :
    pystrip (rstrip l) = rstrip l := by
  rw [hl, pystrip_eq_of_head_not_ws c t hc, ← hl, rstrip_idem, hl]

theorem pystrip_all_ws (l : Chars) (h : ∀ c ∈ l, isWs c = true) : pystrip l = [] := by
  unfold pystrip
  have hdw : l.dropWhile isWs = [] := by
    rw [List.dropWhile_eq_nil_iff]
    intro x hx
    exact h x hx
  rw [hdw]
  rfl

theorem dropWhile_eq_drop (p : Char → Bool) (l : Chars) :
    l.dropWhile p = l.drop (l.takeWhile p).length := by
  induction l with
  | nil => simp
  | cons c cs ih =>
    by_cases hp : p c
    · rw [List.dropWhile_cons_of_pos hp, List.takeWhile_cons_of_pos hp]
      simpa using ih
    · rw [List.dropWhile_cons_of_neg hp, List.takeWhile_cons_of_neg hp]
      simp

theorem pystrip_head_not_ws (l : Chars) (h : pystrip l ≠ []) :
    isWs ((pystrip l).headD ' ') = false := by
  have hps : pystrip l = rstrip (l.dropWhile isWs) := rfl
  cases hdw : l.dropWhile isWs with
  | nil => rw [hps, hdw] at h; simp [rstrip] at h
  | cons c cs =>
    rw [hps, hdw] at h
    rw [hps, hdw]
    have hc : isWs c = false := (span_decomp isWs l c cs hdw).2
    rcases rstrip_head c cs with h0 | ⟨t', ht'⟩
    · exact absurd h0 h
    · rw [ht']
      simpa using hc

/-!
The per-key loop of the scanner: `_KEY_ITEM_RE = \s*([^,]+?)\s*(?:,|$)`
matched repeatedly with `_KEY_ITEM_RE.match(keys_str, pos)`.  The
deterministic embedding reproduces the regex engine's backtracking
outcome at each position:
  - if some non-whitespace, non-comma character follows the leading
    whitespace run, the group is the entry text up to the next comma with
    trailing whitespace stripped (lazy group, greedy trailing `\s*`);
  - if the leading whitespace run is followed by a comma or the end of
    the string, a nonempty run backtracks one character into the
    whitespace (the group becomes that single whitespace character, which
    the caller then strips to the empty key), while an empty run fails
    to match, ending the scan (an empty list entry stops the loop).
-/

/-- The regex class `[^,]` as a Boolean predicate. -/
def notComma (c : Char) : Bool := c ≠ ','

/-- One `_KEY_ITEM_RE.match(keys_str, pos)` attempt on the suffix
starting at `pos`.  Returns `(group, group offset, match-end offset)`,
offsets relative to the suffix. -/
def kmMatch (rest : Chars) : Option (Chars × Nat × Nat) :=
  let w := (rest.takeWhile isWs).length
  match rest.dropWhile isWs with
  | [] =>
    if w = 0 then none
    else some ((rest.takeWhile isWs).drop (w - 1), w - 1, w)
  | c :: rest' =>
    if c = ',' then
      if w = 0 then none
      else some ((rest.takeWhile isWs).drop (w - 1), w - 1, w + 1)
    else
      let ent := (c :: rest').takeWhile notComma
      let hasComma := decide (ent.length < (c :: rest').length)
      some (rstrip ent, w, w + ent.length + (if hasComma then 1 else 0))

theorem kmMatch_end_pos :
    ∀ rest g o m, kmMatch rest = some (g, o, m) → 1 ≤ m := by
  intro rest g o m h
  simp only [kmMatch] at h
  split at h
  · rename_i hdw
    split at h
    · simp at h
    · rename_i hw
      simp at h
      omega
  · rename_i c rest' hdw
    by_cases hc : c = ','
    · rw [if_pos hc] at h
      split at h
      · simp at h
      · rename_i hw
        simp at h
        omega
    · rw [if_neg hc] at h
      simp at h
      have hent : ((c :: rest').takeWhile notComma).length ≥ 1 := by
        have : notComma c = true := by simp [notComma, hc]
        rw [List.takeWhile_cons_of_pos this]
        simp
      omega

/-- The scanner's inner `while pos <= len(keys_str)` loop, fuel-indexed. -/
def keyItemsGo : Nat → Chars → Nat → List (Chars × Nat)
  | 0, _, _ => []
  | fuel + 1, s, pos =>
    if pos ≤ s.length then
      match kmMatch (s.drop pos) with
      | none => []
      | some (grp, gsOff, meOff) =>
        let key := pystrip grp
        let tail := keyItemsGo fuel s (pos + meOff)
        if key = [] then tail else (key, pos + gsOff) :: tail
    else []

/-- All `(key, local start)` pairs produced from one key-list group. -/
def keyItems (s : Chars) : List (Chars × Nat) := keyItemsGo (s.length + 2) s 0

theorem kmMatch_char :
    ∀ rest grp o m, kmMatch rest = some (grp, o, m) →
      (∀ c ∈ grp, isWs c = true) ∨
      (o = (rest.takeWhile isWs).length ∧
       grp = rstrip ((rest.dropWhile isWs).takeWhile notComma)) := by
  intro rest grp o m h
  simp only [kmMatch] at h
  split at h
  · rename_i hdw
    split at h
    · simp at h
    · simp at h
      left
      intro c hc
      rw [← h.1] at hc
      exact List.mem_takeWhile_imp (List.mem_of_mem_drop hc)
  · rename_i c rest' hdw
    by_cases hc : c = ','
    · rw [if_pos hc] at h
      split at h
      · simp at h
      · simp at h
        left
        intro d hd
        rw [← h.1] at hd
        exact List.mem_takeWhile_imp (List.mem_of_mem_drop hd)
    · rw [if_neg hc] at h
      have h2 := Option.some.inj h
      right
      constructor
      · exact (congrArg (fun t => t.2.1) h2).symm
      · rw [hdw]
        exact (congrArg (fun t => t.1) h2).symm

theorem keyItemsGo_sound :
    ∀ fuel s pos k j, (k, j) ∈ keyItemsGo fuel s pos →
      k ≠ [] ∧ isWs (k.headD ' ') = false ∧ (s.drop j).take k.length = k := by
  intro fuel
  induction fuel with
  | zero => intro s pos k j h; simp [keyItemsGo] at h
  | succ fuel ih =>
    intro s pos k j h
    simp only [keyItemsGo] at h
    by_cases hpos : pos ≤ s.length
    case neg => rw [if_neg hpos] at h; simp at h
    case pos =>
      rw [if_pos hpos] at h
      cases hkm : kmMatch (s.drop pos) with
      | none => rw [hkm] at h; simp at h
      | some res =>
        obtain ⟨grp, gsOff, meOff⟩ := res
        rw [hkm] at h
        simp only [] at h
        by_cases hkey : pystrip grp = []
        · rw [if_pos hkey] at h
          exact ih s (pos + meOff) k j h
        · rw [if_neg hkey] at h
          rcases List.mem_cons.mp h with hhd | htl
          swap
          · exact ih s (pos + meOff) k j htl
          · have hk : k = pystrip grp := congrArg Prod.fst hhd
            have hj : j = pos + gsOff := congrArg Prod.snd hhd
            rcases kmMatch_char (s.drop pos) grp gsOff meOff hkm with hws | ⟨ho, hgrp⟩
            · exact absurd (pystrip_all_ws grp hws) (hk ▸ hkey)
            · -- the group comes from a real entry: key = grp and it sits at
              -- offset gsOff (the leading-whitespace length) in the suffix
              set rest := s.drop pos with hrest
              set ent := (rest.dropWhile isWs).takeWhile notComma with hent
              have hgrpent : ∃ t, grp ++ t = rest.dropWhile isWs := by
                obtain ⟨t1, ht1, _⟩ := rstrip_decomp ent
                refine ⟨t1 ++ (rest.dropWhile isWs).dropWhile notComma, ?_⟩
                rw [hgrp]
                have : ent ++ (rest.dropWhile isWs).dropWhile notComma
                    = rest.dropWhile isWs := by
                  rw [hent]
                  exact List.takeWhile_append_dropWhile notComma _
                calc rstrip ent ++ (t1 ++ (rest.dropWhile isWs).dropWhile notComma)
                    = (rstrip ent ++ t1) ++ (rest.dropWhile isWs).dropWhile notComma := by
                      simp
                  _ = ent ++ (rest.dropWhile isWs).dropWhile notComma := by rw [← ht1]
                  _ = rest.dropWhile isWs := this
              have hkeygrp : pystrip grp = grp := by
                cases hdwr : rest.dropWhile isWs with
                | nil =>
                  rw [hdwr] at hent
                  simp at hent
                  rw [hent] at hgrp
                  simp [rstrip] at hgrp
                  exact absurd (by rw [hgrp]; rfl) hkey
                | cons c0 cs0 =>
                  have hc0ws : isWs c0 = false := (span_decomp isWs rest c0 cs0 hdwr).2
                  by_cases hc0c : notComma c0 = true
                  · have hentc : ent = c0 :: cs0.takeWhile notComma := by
                      rw [hent, hdwr, List.takeWhile_cons_of_pos hc0c]
                    rcases rstrip_head c0 (cs0.takeWhile notComma) with h0 | ⟨t', ht'⟩
                    · rw [hgrp, hentc, h0] at hkey
                      exact absurd rfl hkey
                    · rw [hgrp, hentc]
                      exact pystrip_of_rstrip_head_not_ws _ c0 t' ht' hc0ws
                  · have hentn : ent = [] := by
                      rw [hent, hdwr, List.takeWhile_cons_of_neg (by simpa using hc0c)]
                    rw [hentn] at hgrp
                    simp [rstrip] at hgrp
                    exact absurd (by rw [hgrp]; rfl) hkey
              refine ⟨hk ▸ hkey, ?_, ?_⟩
              · rw [hk]
                exact pystrip_head_not_ws grp (hk ▸ hkey)
              · rw [hk, hj, hkeygrp]
                obtain ⟨t, ht⟩ := hgrpent
                have hdrop : s.drop (pos + gsOff) = grp ++ t := by
                  rw [ho]
                  have h1 : s.drop (pos + (rest.takeWhile isWs).length)
                      = rest.drop (rest.takeWhile isWs).length := by
                    rw [hrest, List.drop_drop]
                    try congr 1
                    try omega
                  rw [h1, ← dropWhile_eq_drop, ht]
                rw [hdrop]
                exact List.take_left grp t

/-!
Per-line occurrence extraction of the scanner
(`for m in _CITE_PATTERN.finditer(scan_segment)` with the inner
`_KEY_ITEM_RE` loop).  `abs_col = group_start + key_local_start + 1`.
-/

/-- The `finditer` loop over one comment-trimmed line segment,
fuel-indexed.  Produces `(key, 1-based column)` pairs. -/
def segCitesGo : Nat → Chars → Nat → List (Chars × Nat)
  | 0, _, _ => []
  | fuel + 1, seg, pos =>
    match tryCiteAt (seg.drop pos) with
    | some (g, rest) =>
      let matchEnd := seg.length - rest.length
      let groupStart := matchEnd - 1 - g.length
      ((keyItems g).map (fun kj => (kj.1, groupStart + kj.2 + 1)))
        ++ segCitesGo fuel seg matchEnd
    | none =>
      if pos < seg.length then segCitesGo fuel seg (pos + 1) else []

/-- All `(key, column)` pairs of one comment-trimmed line segment. -/
def segCites (seg : Chars) : List (Chars × Nat) := segCitesGo (seg.length + 1) seg 0

theorem segCitesGo_sound :
    ∀ fuel seg pos k c, (k, c) ∈ segCitesGo fuel seg pos →
      1 ≤ c ∧ k ≠ [] ∧ isWs (k.headD ' ') = false ∧
      (seg.drop (c - 1)).take k.length = k := by
  intro fuel
  induction fuel with
  | zero => intro seg pos k c h; simp [segCitesGo] at h
  | succ fuel ih =>
    intro seg pos k c h
    simp only [segCitesGo] at h
    cases hm : tryCiteAt (seg.drop pos) with
    | none =>
      rw [hm] at h
      by_cases hlt : pos < seg.length
      · rw [if_pos hlt] at h
        exact ih seg (pos + 1) k c h
      · rw [if_neg hlt] at h
        simp at h
    | some res =>
      obtain ⟨g, rest⟩ := res
      rw [hm] at h
      simp only [List.mem_append] at h
      rcases h with hmap | htail
      swap
      · exact ih seg (seg.length - rest.length) k c htail
      · rw [List.mem_map] at hmap
        obtain ⟨⟨k0, j⟩, hk0, hf⟩ := hmap
        have hkk : k = k0 := (congrArg Prod.fst hf).symm
        have hcc : c = (seg.length - rest.length) - 1 - g.length + j + 1 :=
          (congrArg Prod.snd hf).symm
        obtain ⟨pre, hdecomp, hpre, _⟩ := tryCiteAt_decomp (seg.drop pos) g rest hm
        have hlen : (seg.drop pos).length = pre.length + g.length + rest.length + 2 := by
          rw [hdecomp]
          simp
          try omega
        have hposlt : pos < seg.length := by
          by_contra hge
          have : seg.drop pos = [] := by
            apply List.drop_eq_nil_of_le
            omega
          rw [this] at hlen
          simp at hlen
          try omega
        have hdl : (seg.drop pos).length = seg.length - pos := List.length_drop pos seg
        have hgsabs : (seg.length - rest.length) - 1 - g.length = pos + pre.length + 1 := by
          omega
        -- the key-list group sits right after `pre ++ ['{']` in the segment
        have hsegAt : seg.drop (pos + pre.length + 1) = g ++ '}' :: rest := by
          have h1 : seg.drop (pos + pre.length + 1)
              = (seg.drop pos).drop (pre.length + 1) := by
            rw [List.drop_drop]
            try congr 1
            try omega
          rw [h1, hdecomp]
          have h2 : pre ++ '{' :: g ++ '}' :: rest
              = (pre ++ ['{']) ++ (g ++ '}' :: rest) := by simp
          rw [h2]
          exact List.drop_left' (by simp)
        obtain ⟨hk0ne, hk0hd, hk0loc⟩ := keyItemsGo_sound _ g 0 k0 j hk0
        have hjlt : j < g.length := by
          by_contra hge
          have hnil : g.drop j = [] := List.drop_eq_nil_of_le (by omega)
          rw [hnil] at hk0loc
          simp at hk0loc
          exact hk0ne hk0loc
        refine ⟨by omega, hkk ▸ hk0ne, hkk ▸ hk0hd, ?_⟩
        have hc1 : c - 1 = pos + pre.length + 1 + j := by
          rw [hcc, hgsabs]
          omega
        rw [hc1, hkk]
        have h3 : seg.drop (pos + pre.length + 1 + j)
            = (seg.drop (pos + pre.length + 1)).drop j := by
          rw [List.drop_drop]
          try congr 1
          try omega
        rw [h3, hsegAt]
        have h4 : g ++ '}' :: rest = g.take j ++ (g.drop j ++ '}' :: rest) := by
          conv_lhs => rw [← List.take_append_drop j g]
          exact List.append_assoc _ _ _
        rw [h4, List.drop_left' (by simp [List.length_take]; omega)]
        have h5 : g.drop j = k0 ++ (g.drop j).drop k0.length := by
          conv_lhs => rw [← List.take_append_drop k0.length (g.drop j)]
          rw [hk0loc]
        rw [h5]
        have h6 : (k0 ++ (g.drop j).drop k0.length) ++ '}' :: rest
            = k0 ++ ((g.drop j).drop k0.length ++ '}' :: rest) := by simp
        rw [h6]
        exact List.take_left k0 _

/-!
Comment trimming.  Both modules remove line comments with the regex
`(?<!\\)%.*`; the scanner additionally computes the cut position with
`first_unescaped_percent`.  Both are the index of the first `%` not
immediately preceded by a backslash.
-/

/-- Index of the first unescaped percent sign relative to the current
position, carrying the previous character for the look-behind. -/
def fupGo : Option Char → Chars → Nat
  | _, [] => 0
  | prev, c :: cs =>
    if c = '%' ∧ prev ≠ some '\\' then 0 else 1 + fupGo (some c) cs

/-- Index of the first unescaped `%` in a line, or its length if none. -/
def firstUnescapedPercent (l : Chars) : Nat := fupGo none l

/-- One line with its trailing comment removed
(`re.sub(r"(?<!\\)%.*", "", line)`). -/
def stripLineComment (l : Chars) : Chars := l.take (firstUnescapedPercent l)

theorem fupGo_no_percent :
    ∀ l prev, '%' ∉ l → fupGo prev l = l.length := by
  intro l
  induction l with
  | nil => intro prev _; rfl
  | cons c cs ih =>
    intro prev hc
    have hcne : c ≠ '%' := by intro h; exact hc (by simp [h])
    have hcs : '%' ∉ cs := by intro h; exact hc (by simp [h])
    show (if c = '%' ∧ prev ≠ some '\\' then 0 else 1 + fupGo (some c) cs)
        = (c :: cs).length
    rw [if_neg (by simp [hcne])]
    rw [ih (some c) hcs]
    simp
    omega

theorem fup_no_percent :
    ∀ l, '%' ∉ l → firstUnescapedPercent l = l.length := by
  intro l h
  exact fupGo_no_percent l none h

theorem fupGo_clean_append :
    ∀ u prev v, '%' ∉ u → (u = [] → prev ≠ some '\\') →
      (∀ y, u.getLast? = some y → y ≠ '\\') →
      fupGo prev (u ++ '%' :: v) = u.length := by
  intro u
  induction u with
  | nil =>
    intro prev v _ hprev _
    rw [List.nil_append]
    show (if '%' = '%' ∧ prev ≠ some '\\' then 0 else 1 + fupGo (some '%') v)
        = ([] : Chars).length
    rw [if_pos ⟨rfl, hprev rfl⟩]
    rfl
  | cons c cs ih =>
    intro prev v hc hprev hlast
    have hcne : c ≠ '%' := by intro h; exact hc (by simp [h])
    have hcs : '%' ∉ cs := by intro h; exact hc (by simp [h])
    have hnil : cs = [] → some c ≠ some '\\' := by
      intro hcsnil
      have hl : (c :: cs).getLast? = some c := by rw [hcsnil]; rfl
      have := hlast c hl
      simp [this]
    have hlst : ∀ y, cs.getLast? = some y → y ≠ '\\' := by
      intro y hy
      apply hlast y
      cases cs with
      | nil => simp at hy
      | cons d ds => rw [List.getLast?_cons_cons]; exact hy
    rw [List.cons_append]
    show (if c = '%' ∧ prev ≠ some '\\' then 0 else 1 + fupGo (some c) (cs ++ '%' :: v))
        = (c :: cs).length
    rw [if_neg (by simp [hcne])]
    rw [ih (some c) v hcs hnil hlst]
    simp
    omega

theorem fup_clean_append :
    ∀ u v, '%' ∉ u → (∀ y, u.getLast? = some y → y ≠ '\\') →
      firstUnescapedPercent (u ++ '%' :: v) = u.length := by
  intro u v hu hlast
  exact fupGo_clean_append u none v hu (by intro _; simp) hlast

theorem stripLineComment_clean_append :
    ∀ u v, '%' ∉ u → (∀ y, u.getLast? = some y → y ≠ '\\') →
      stripLineComment (u ++ '%' :: v) = u := by
  intro u v hu hlast
  unfold stripLineComment
  rw [fup_clean_append u v hu hlast]
  exact List.take_left u ('%' :: v)

theorem stripLineComment_no_percent :
    ∀ l, '%' ∉ l → stripLineComment l = l := by
  intro l h
  unfold stripLineComment
  rw [fup_no_percent l h]
  exact List.take_length l

/-!
Snippets and per-line occurrences of the scanner
(tex_scanner.py, `scan_file` inner loop).
-/

/-- The literal appended by the snippet truncation: the source file
holds the three-character double-encoded sequence `â€¦` (the bytes
C3 A2 E2 82 AC C2 A6 of its UTF-8 text), not a single ellipsis
character. -/
def snippetMarker : Chars := ['â', '€', '¦']

/-- Snippet construction: `snippet = scan_segment.strip()`, truncated to
240 characters plus the appended three-character marker when longer. -/
def mkSnippet (seg : Chars) : Chars :=
  let t := pystrip seg
  if 240 < t.length then t.take 240 ++ snippetMarker else t

theorem mkSnippet_length_le : ∀ seg, (mkSnippet seg).length ≤ 243 := by
  intro seg
  simp only [mkSnippet]
  split
  · rename_i h
    simp [List.length_take, snippetMarker]
  · rename_i h
    simp at h
    omega

theorem mkSnippet_cases :
    ∀ seg, mkSnippet seg = pystrip seg ∨
      mkSnippet seg = (pystrip seg).take 240 ++ snippetMarker := by
  intro seg
  simp only [mkSnippet]
  split
  · exact Or.inr rfl
  · exact Or.inl rfl

/-- Occurrences of one comment-trimmed line segment:
`(key, column, snippet)` triples in emission order. -/
def scanSegOccs (seg : Chars) : List (Chars × Nat × Chars) :=
  (segCites seg).map (fun kc => (kc.1, kc.2, mkSnippet seg))

/-- Occurrences contributed by one raw line in the `normal` state:
comment trimming, the backslash guard, then citation scanning. -/
def lineOccs (line : Chars) : List (Chars × Nat × Chars) :=
  let sseg := stripLineComment line
  if '\\' ∈ sseg then scanSegOccs sseg else []

theorem scanSegOccs_snippet :
    ∀ seg k c sn, (k, c, sn) ∈ scanSegOccs seg → sn = mkSnippet seg := by
  intro seg k c sn h
  simp only [scanSegOccs, List.mem_map] at h
  obtain ⟨kc, _, hf⟩ := h
  have := congrArg (fun t => t.2.2) hf
  simpa using this.symm

theorem lineOccs_clean_append :
    ∀ u v, '%' ∉ u → (∀ y, u.getLast? = some y → y ≠ '\\') →
      lineOccs (u ++ '%' :: v) = lineOccs u := by
  intro u v hu hlast
  simp only [lineOccs]
  rw [stripLineComment_clean_append u v hu hlast, stripLineComment_no_percent u hu]

/-!
Whole-text preprocessing used by the numbering pass
(`_preprocess_source_for_numbering` in collect_refs.py): strip the
verbatim-like environment blocks, then `\iffalse ... \fi` regions, then
line comments.
-/

/-- Split off the first line at `\n`, `\r\n` or `\r`
(Python `str.splitlines` on the line endings the tool encounters). -/
def firstLineSplit : Chars → Chars × Option Chars
  | [] => ([], none)
  | c :: cs =>
    if c = '\r' then
      match cs with
      | '\n' :: cs' => ([], some cs')
      | _ => ([], some cs)
    else if c = '\n' then ([], some cs)
    else
      let p := firstLineSplit cs
      (c :: p.1, p.2)

/-- Python `str.splitlines`, fuel-indexed. -/
def splitLinesGo : Nat → Chars → List Chars
  | 0, _ => []
  | fuel + 1, l =>
    match l with
    | [] => []
    | _ =>
      let p := firstLineSplit l
      p.1 :: (match p.2 with
              | none => []
              | some rest => splitLinesGo fuel rest)

/-- Python `str.splitlines`. -/
def splitLines (l : Chars) : List Chars := splitLinesGo (l.length + 1) l

theorem firstLineSplit_no_newline :
    ∀ l, '\n' ∉ l → '\r' ∉ l → firstLineSplit l = (l, none) := by
  intro l
  induction l with
  | nil => intro _ _; rfl
  | cons c cs ih =>
    intro hn hr
    have hcn : c ≠ '\n' := by intro h; exact hn (by simp [h])
    have hcr : c ≠ '\r' := by intro h; exact hr (by simp [h])
    have hn' : '\n' ∉ cs := by intro h; exact hn (by simp [h])
    have hr' : '\r' ∉ cs := by intro h; exact hr (by simp [h])
    simp only [firstLineSplit, hcr, hcn, if_false, ih hn' hr']

theorem splitLines_no_newline :
    ∀ l, l ≠ [] → '\n' ∉ l → '\r' ∉ l → splitLines l = [l] := by
  intro l hne hn hr
  unfold splitLines
  cases l with
  | nil => exact absurd rfl hne
  | cons c cs =>
    simp only [splitLinesGo]
    rw [firstLineSplit_no_newline (c :: cs) hn hr]

/-- Line-comment stripping over a whole text
(`_strip_line_comments` / the inline comprehension in collect_refs.py). -/
def stripLineComments (text : Chars) : Chars :=
  List.intercalate ['\n'] ((splitLines text).map stripLineComment)

theorem stripLineComments_single_line :
    ∀ l, '\n' ∉ l → '\r' ∉ l → '%' ∉ l → stripLineComments l = l := by
  intro l hn hr hp
  unfold stripLineComments
  cases hl : l with
  | nil => simp [splitLines, splitLinesGo, List.intercalate]
  | cons c cs =>
    rw [← hl]
    rw [splitLines_no_newline l (by rw [hl]; simp) hn hr]
    rw [List.map_singleton, stripLineComment_no_percent l hp]
    simp [List.intercalate]

/-- Case-insensitive substring search returning the text after the first
occurrence of the pattern (fuel-indexed). -/
def seekCI (pat : Chars) : Nat → Chars → Option Chars
  | 0, _ => none
  | fuel + 1, l =>
    match matchCharsCI pat l with
    | some r => some r
    | none =>
      match l with
      | [] => none
      | _ :: cs => seekCI pat fuel cs

/-- One `pattern.sub("", text)` pass for
`\\begin\{env\}.*?\\end\{env\}` (DOTALL, IGNORECASE): at each position
where the begin marker matches and an end marker follows, drop through
the end marker and continue after it; otherwise keep the character. -/
def stripEnvGo (bp ep : Chars) : Nat → Chars → Chars
  | 0, _ => []
  | fuel + 1, l =>
    match l with
    | [] => []
    | c :: cs =>
      match matchCharsCI bp (c :: cs) with
      | some afterBegin =>
        match seekCI ep (afterBegin.length + 1) afterBegin with
        | some rest => stripEnvGo bp ep fuel rest
        | none => c :: stripEnvGo bp ep fuel cs
      | none => c :: stripEnvGo bp ep fuel cs

/-- Remove all blocks of one environment (`_strip_env_blocks`, one
iteration of its `for env in envs` loop). -/
def stripEnvOne (env : String) (text : Chars) : Chars :=
  stripEnvGo (str ("\\begin\x7b" ++ env ++ "\x7d")) (str ("\\end\x7b" ++ env ++ "\x7d"))
    (text.length + 1) text

/-- `_strip_env_blocks(text, ["comment", "verbatim", "lstlisting", "minted"])`. -/
def stripEnvBlocks (text : Chars) : Chars :=
  stripEnvOne "minted" (stripEnvOne "lstlisting" (stripEnvOne "verbatim"
    (stripEnvOne "comment" text)))

/-- Match `\iffalse\b` (IGNORECASE) at the current position. -/
def matchIffalse (cs : Chars) : Option Chars :=
  match matchCharsCI (str "\\iffalse") cs with
  | none => none
  | some r =>
    match r with
    | [] => some []
    | c :: r' => if isWord c then none else some (c :: r')

/-- Match `\fi\b` (IGNORECASE) at the current position. -/
def matchFi (cs : Chars) : Option Chars :=
  match matchCharsCI (str "\\fi") cs with
  | none => none
  | some r =>
    match r with
    | [] => some []
    | c :: r' => if isWord c then none else some (c :: r')

/-- Text after the first `\fi\b` occurrence, if any (fuel-indexed). -/
def seekFi : Nat → Chars → Option Chars
  | 0, _ => none
  | fuel + 1, l =>
    match matchFi l with
    | some r => some r
    | none =>
      match l with
      | [] => none
      | _ :: cs => seekFi fuel cs

/-- One `pat.sub("", text)` pass for `\iffalse\b.*?\fi\b`
(DOTALL, IGNORECASE), also reporting whether anything was removed. -/
def stripIffalseOnceGo : Nat → Chars → Chars × Bool
  | 0, _ => ([], false)
  | fuel + 1, l =>
    match l with
    | [] => ([], false)
    | c :: cs =>
      match matchIffalse (c :: cs) with
      | some afterIf =>
        match seekFi (afterIf.length + 1) afterIf with
        | some rest =>
          let p := stripIffalseOnceGo fuel rest
          (p.1, true)
        | none =>
          let p := stripIffalseOnceGo fuel cs
          (c :: p.1, p.2)
      | none =>
        let p := stripIffalseOnceGo fuel cs
        (c :: p.1, p.2)

/-- One substitution pass of `_strip_iffalse_blocks`. -/
def stripIffalseOnce (l : Chars) : Chars × Bool :=
  stripIffalseOnceGo (l.length + 1) l

/-- The `while prev != text` fixpoint loop of `_strip_iffalse_blocks`. -/
def stripIffalseFixGo : Nat → Chars → Chars
  | 0, l => l
  | fuel + 1, l =>
    let p := stripIffalseOnce l
    if p.2 then stripIffalseFixGo fuel p.1 else l

/-- `_strip_iffalse_blocks`. -/
def stripIffalseBlocks (l : Chars) : Chars := stripIffalseFixGo (l.length + 1) l

/-- `_preprocess_source_for_numbering` from collect_refs.py. -/
def preprocessForNumbering (text : Chars) : Chars :=
  stripLineComments (stripIffalseBlocks (stripEnvBlocks text))

/-- Scanning loop collecting all cite key-list groups of a text in order
(the `_CITE_PATTERN.finditer(cleaned)` loop of the numbering pass). -/
def extractCiteGroupsGo : Nat → Chars → List Chars
  | 0, _ => []
  | fuel + 1, l =>
    match tryCiteAt l with
    | some (g, rest) => g :: extractCiteGroupsGo fuel rest
    | none =>
      match l with
      | [] => []
      | _ :: cs => extractCiteGroupsGo fuel cs

/-- All cite key-list groups of a text, in order of appearance. -/
def extractCiteGroups (l : Chars) : List Chars :=
  extractCiteGroupsGo (l.length + 1) l

/-- `[k.strip() for k in keys_str.split(",") if k.strip()]`. -/
def splitKeys (g : Chars) : List Chars :=
  ((g.splitOn ',').map pystrip).filter (fun k => decide (k ≠ []))

/-- The citation keys a single file contributes to the numbering pass,
in order: groups from the content-filtered text, split on commas,
stripped, empties dropped. -/
def numKeysOfContent (raw : Chars) : List Chars :=
  ((extractCiteGroups (preprocessForNumbering raw)).map splitKeys).flatten

/-!
The scanner's per-line block-state machine
(`in_iffalse`, `in_block_env` / `in_block_name` in
`scan_tex_project_citations.scan_file`).
-/

/-- `iff_re.search(line)`: does `\iffalse\b` occur anywhere (IGNORECASE)? -/
def searchIffalse : Chars → Bool
  | [] => false
  | c :: cs => (matchIffalse (c :: cs)).isSome || searchIffalse cs

/-- `fi_re.search(line)`: does `\fi\b` occur anywhere (IGNORECASE)? -/
def searchFi : Chars → Bool
  | [] => false
  | c :: cs => (matchFi (c :: cs)).isSome || searchFi cs

/-- The skipped environment names (`ENV_SKIP`), in alternation order. -/
def envNames : List String := ["comment", "verbatim", "lstlisting", "minted"]

/-- Try the environment-name alternation followed by `}`. -/
def tryEnvName : List String → Chars → Option String
  | [], _ => none
  | n :: ns, r =>
    match matchCharsCI (str n) r with
    | some r2 =>
      match r2 with
      | '}' :: _ => some n
      | _ => tryEnvName ns r
    | none => tryEnvName ns r

/-- Match `\begin{(comment|verbatim|lstlisting|minted)}` at a position,
returning the (lower-cased) environment name. -/
def tryBeginEnvAt (cs : Chars) : Option String :=
  match matchCharsCI (str "\\begin\x7b") cs with
  | none => none
  | some r => tryEnvName envNames r

/-- Match `\end{(comment|verbatim|lstlisting|minted)}` at a position. -/
def tryEndEnvAt (cs : Chars) : Option String :=
  match matchCharsCI (str "\\end\x7b") cs with
  | none => none
  | some r => tryEnvName envNames r

/-- `begin_env_re.search(line)` with the captured name lower-cased. -/
def searchBeginEnv : Chars → Option String
  | [] => none
  | c :: cs =>
    match tryBeginEnvAt (c :: cs) with
    | some n => some n
    | none => searchBeginEnv cs

/-- `end_env_re.search(line)` with the captured name lower-cased. -/
def searchEndEnv : Chars → Option String
  | [] => none
  | c :: cs =>
    match tryEndEnvAt (c :: cs) with
    | some n => some n
    | none => searchEndEnv cs

/-- One citation occurrence as recorded by the scanner. -/
structure Occ where
  file : Chars
  line : Nat
  col : Nat
  snippet : Chars
deriving DecidableEq

/-- `occurrences.setdefault(key, []).append(...)`: insertion-ordered
association list from keys to occurrence lists. -/
def occAdd : List (Chars × List Occ) → Chars → Occ → List (Chars × List Occ)
  | [], k, o => [(k, [o])]
  | (k', os) :: m, k, o =>
    if k' = k then (k', os ++ [o]) :: m else (k', os) :: occAdd m k o

/-- Record one extracted `(key, column, snippet)` of a line as an
occurrence of the current file and line number. -/
def occAddLine (file : Chars) (idx : Nat) (acc : List (Chars × List Occ))
    (kco : Chars × Nat × Chars) : List (Chars × List Occ) :=
  occAdd acc kco.1 ⟨file, idx, kco.2.1, kco.2.2⟩

/-- The scanner's per-line loop over one file's raw lines, threading the
`\iffalse` and environment block states. -/
def scanLines (file : Chars) : Bool → Option String → Nat → List Chars →
    List (Chars × List Occ) → List (Chars × List Occ)
  | _, _, _, [], occ => occ
  | inIff, inBlock, idx, line :: rest, occ =>
    let inIff1 := if ¬inIff ∧ searchIffalse line then true else inIff
    if inIff1 then
      scanLines file (!(searchFi line)) inBlock (idx + 1) rest occ
    else
      match inBlock with
      | none =>
        match searchBeginEnv line with
        | some name => scanLines file false (some name) (idx + 1) rest occ
        | none =>
          let occ2 := (lineOccs line).foldl (occAddLine file idx) occ
          scanLines file false none (idx + 1) rest occ2
      | some bname =>
        match searchEndEnv line with
        | some name =>
          if name = bname then scanLines file false none (idx + 1) rest occ
          else scanLines file false (some bname) (idx + 1) rest occ
        | none => scanLines file false (some bname) (idx + 1) rest occ

/-!
File-system model and the two recursive traversals.  Path reading,
`Path.resolve()` canonicalisation and `_resolve_included_path` are
external to the embedded text processing: the file system is a finite
association list from (already canonical) paths to contents, and the
directory-resolution rule is a parameter `ri` shared — exactly as in the
source, where both modules carry the same `_resolve_included_path` —
by the Scanner and the Numbering Pass.  `inc_path.exists()` is modelled
by a successful lookup. -/
abbrev FS := List (Chars × Chars)

/-- First-match association lookup (file read by canonical path). -/
def lookupFS : FS → Chars → Option Chars
  | [], _ => none
  | (p, c) :: fs, q => if p = q then some c else lookupFS fs q

/-- State of the scanner traversal: visited set plus occurrence map. -/
structure ScanSt where
  visited : List Chars
  occs : List (Chars × List Occ)
deriving DecidableEq

/-- One step of the scanner's include loop: strip the directive
argument, resolve it, and recurse when the target exists. -/
def texIncStep (fs : FS) (ri : Chars → Chars → Chars)
    (rec : ScanSt → Chars → ScanSt) (p : Chars) (acc : ScanSt) (a : Chars) : ScanSt :=
  let a2 := pystrip a
  if a2 ≠ [] then
    let q := ri p a2
    if (lookupFS fs q).isSome then rec acc q else acc
  else acc

/-- `scan_file` of `scan_tex_project_citations`: mark visited, follow
includes found in the raw text (in order), then scan the file's own
lines.  Fuel-indexed; the fuel bounds the include-nesting depth, which
the visited set keeps below the number of files. -/
def scanFileTex (fs : FS) (ri : Chars → Chars → Chars) : Nat → ScanSt → Chars → ScanSt
  | 0, st, _ => st
  | fuel + 1, st, p =>
    if p ∈ st.visited then st
    else
      let st1 : ScanSt := ⟨p :: st.visited, st.occs⟩
      match lookupFS fs p with
      | none => st1
      | some raw =>
        let st2 := (extractIncludes raw).foldl
          (texIncStep fs ri (scanFileTex fs ri fuel) p) st1
        ⟨st2.visited, scanLines p false none 1 (splitLines raw) st2.occs⟩

/-- `scan_tex_project_citations`: the occurrence map of the project. -/
def scan_tex_project_citations (fs : FS) (ri : Chars → Chars → Chars)
    (root : Chars) : List (Chars × List Occ) :=
  (scanFileTex fs ri (fs.length + 2) ⟨[], []⟩ root).occs

/-- The visited set left by the scanner traversal. -/
def scanVisited (fs : FS) (ri : Chars → Chars → Chars) (root : Chars) : List Chars :=
  (scanFileTex fs ri (fs.length + 2) ⟨[], []⟩ root).visited

/-- State of the numbering traversal: visited set, counter, numbers map
(insertion-ordered, as a Python dict). -/
structure NumSt where
  visited : List Chars
  counter : Nat
  numbers : List (Chars × Nat)
deriving DecidableEq

/-- Association lookup in the numbers map (`key not in numbers`). -/
def lookupNum : List (Chars × Nat) → Chars → Option Nat
  | [], _ => none
  | (k', n) :: m, k => if k' = k then some n else lookupNum m k

/-- The `for key in keys: if key not in numbers: ...` loop. -/
def numKeyFold (st : NumSt) (ks : List Chars) : NumSt :=
  ks.foldl (fun acc k =>
    if (lookupNum acc.numbers k).isSome then acc
    else ⟨acc.visited, acc.counter + 1, acc.numbers ++ [(k, acc.counter + 1)]⟩) st

/-- One step of the numbering pass's include loop: strip the directive
argument, resolve it, and recurse when the target exists. -/
def numIncStep (fs : FS) (ri : Chars → Chars → Chars)
    (rec : NumSt → Chars → NumSt) (p : Chars) (acc : NumSt) (a : Chars) : NumSt :=
  let a2 := pystrip a
  if a2 ≠ [] then
    let q := ri p a2
    if (lookupFS fs q).isSome then rec acc q else acc
  else acc

/-- `scan_file` of `compute_citation_numbers`: mark visited, follow raw
includes first, then number the keys of the content-filtered text. -/
def scanFileNum (fs : FS) (ri : Chars → Chars → Chars) : Nat → NumSt → Chars → NumSt
  | 0, st, _ => st
  | fuel + 1, st, p =>
    if p ∈ st.visited then st
    else
      let st1 : NumSt := ⟨p :: st.visited, st.counter, st.numbers⟩
      match lookupFS fs p with
      | none => st1
      | some raw =>
        let st2 := (extractIncludes raw).foldl
          (numIncStep fs ri (scanFileNum fs ri fuel) p) st1
        numKeyFold st2 (numKeysOfContent raw)

/-- `compute_citation_numbers`: key → first-appearance sequence number. -/
def compute_citation_numbers (fs : FS) (ri : Chars → Chars → Chars)
    (root : Chars) : List (Chars × Nat) :=
  (scanFileNum fs ri (fs.length + 2) ⟨[], 0, []⟩ root).numbers

/-!
Specification-side description of the numbering pass, used to settle the
refinement claims.  `seqVisit` is modelled from the spec's traversal
contract: the same recursive, depth-first traversal over includes found
in the raw text, with each file contributing the keys of its
content-filtered text after all of its includes, and its key sequence is
numbered by first appearance. -/

/-- One step of the spec-side include loop: recurse into an existing
resolved include, extending the visited set and appending its keys. -/
def seqIncStep (fs : FS) (ri : Chars → Chars → Chars)
    (rec : List Chars → Chars → List Chars × List Chars) (p : Chars)
    (acc : List Chars × List Chars) (a : Chars) : List Chars × List Chars :=
  let a2 := pystrip a
  if a2 ≠ [] then
    let q := ri p a2
    if (lookupFS fs q).isSome then
      let r := rec acc.1 q
      (r.1, acc.2 ++ r.2)
    else acc
  else acc

/-- Spec-side traversal: returns the visited set and the concatenated
key sequence in apparent order (includes before the file's own text). -/
def seqVisit (fs : FS) (ri : Chars → Chars → Chars) :
    Nat → List Chars → Chars → List Chars × List Chars
  | 0, vis, _ => (vis, [])
  | fuel + 1, vis, p =>
    if p ∈ vis then (vis, [])
    else
      let vis1 := p :: vis
      match lookupFS fs p with
      | none => (vis1, [])
      | some raw =>
        let pr := (extractIncludes raw).foldl
          (seqIncStep fs ri (seqVisit fs ri fuel) p) (vis1, ([] : List Chars))
        (pr.1, pr.2 ++ numKeysOfContent raw)

/-- The key sequence of the whole project in apparent order. -/
def apparentKeySeq (fs : FS) (ri : Chars → Chars → Chars) (root : Chars) : List Chars :=
  (seqVisit fs ri (fs.length + 2) [] root).2

/-- First-seen numbering of a key sequence: the next positive integer is
assigned at a key's first appearance; later appearances are ignored. -/
def firstSeenStep (nums : List (Chars × Nat)) (k : Chars) : List (Chars × Nat) :=
  if (lookupNum nums k).isSome then nums else nums ++ [(k, nums.length + 1)]

/-- Numbering a key sequence by first appearance, starting from 1. -/
def firstSeen (ks : List Chars) : List (Chars × Nat) :=
  ks.foldl firstSeenStep []

theorem numKeyFold_spec :
    ∀ ks (st : NumSt), st.counter = st.numbers.length →
      numKeyFold st ks =
        ⟨st.visited, (List.foldl firstSeenStep st.numbers ks).length,
         List.foldl firstSeenStep st.numbers ks⟩ := by
  intro ks
  induction ks with
  | nil =>
    intro st hctr
    obtain ⟨vis, ctr, nums⟩ := st
    simp only [numKeyFold, List.foldl_nil]
    simp at hctr
    rw [hctr]
  | cons k ks ih =>
    intro st hctr
    simp only [numKeyFold, List.foldl_cons] at *
    by_cases hlk : (lookupNum st.numbers k).isSome
    · rw [if_pos hlk]
      have hstep : firstSeenStep st.numbers k = st.numbers := by
        simp only [firstSeenStep]
        rw [if_pos hlk]
      rw [hstep]
      exact ih st hctr
    · rw [if_neg hlk]
      have hstep : firstSeenStep st.numbers k
          = st.numbers ++ [(k, st.numbers.length + 1)] := by
        simp only [firstSeenStep]
        rw [if_neg hlk]
      rw [hstep, ← hctr]
      exact ih ⟨st.visited, st.counter + 1, st.numbers ++ [(k, st.counter + 1)]⟩
        (by simp [hctr])

theorem numIncFold_spec (fs : FS) (ri : Chars → Chars → Chars) (fuel : Nat) (p : Chars)
    (ihf : ∀ (st : NumSt) q, st.counter = st.numbers.length →
      scanFileNum fs ri fuel st q =
        ⟨(seqVisit fs ri fuel st.visited q).1,
         (List.foldl firstSeenStep st.numbers (seqVisit fs ri fuel st.visited q).2).length,
         List.foldl firstSeenStep st.numbers (seqVisit fs ri fuel st.visited q).2⟩) :
    ∀ (incs : List Chars) (stA : NumSt) (seqA : List Chars × List Chars)
      (nums0 : List (Chars × Nat)),
      stA.visited = seqA.1 →
      stA.numbers = List.foldl firstSeenStep nums0 seqA.2 →
      stA.counter = stA.numbers.length →
      incs.foldl (numIncStep fs ri (scanFileNum fs ri fuel) p) stA =
        ⟨(incs.foldl (seqIncStep fs ri (seqVisit fs ri fuel) p) seqA).1,
         (List.foldl firstSeenStep nums0
           (incs.foldl (seqIncStep fs ri (seqVisit fs ri fuel) p) seqA).2).length,
         List.foldl firstSeenStep nums0
           (incs.foldl (seqIncStep fs ri (seqVisit fs ri fuel) p) seqA).2⟩ := by
  intro incs
  induction incs with
  | nil =>
    intro stA seqA nums0 hvis hnums hctr
    obtain ⟨vis, ctr, nums⟩ := stA
    simp only [List.foldl_nil]
    simp at hvis hnums hctr
    rw [hvis, hnums, hctr, hnums]
  | cons a incs ih =>
    intro stA seqA nums0 hvis hnums hctr
    simp only [List.foldl_cons]
    by_cases ha2 : pystrip a ≠ []
    · by_cases hq : (lookupFS fs (ri p (pystrip a))).isSome
      · have hstepA : numIncStep fs ri (scanFileNum fs ri fuel) p stA a
            = scanFileNum fs ri fuel stA (ri p (pystrip a)) := by
          simp only [numIncStep]
          rw [if_pos ha2, if_pos hq]
        have hstepB : seqIncStep fs ri (seqVisit fs ri fuel) p seqA a
            = ((seqVisit fs ri fuel seqA.1 (ri p (pystrip a))).1,
               seqA.2 ++ (seqVisit fs ri fuel seqA.1 (ri p (pystrip a))).2) := by
          simp only [seqIncStep]
          rw [if_pos ha2, if_pos hq]
        rw [hstepA, hstepB]
        rw [ihf stA (ri p (pystrip a)) hctr]
        apply ih
        · rw [hvis]
        · rw [hvis, hnums, ← List.foldl_append]
        · simp
      · have hstepA : numIncStep fs ri (scanFileNum fs ri fuel) p stA a = stA := by
          simp only [numIncStep]
          rw [if_pos ha2, if_neg hq]
        have hstepB : seqIncStep fs ri (seqVisit fs ri fuel) p seqA a = seqA := by
          simp only [seqIncStep]
          rw [if_pos ha2, if_neg hq]
        rw [hstepA, hstepB]
        exact ih stA seqA nums0 hvis hnums hctr
    · have hstepA : numIncStep fs ri (scanFileNum fs ri fuel) p stA a = stA := by
        simp only [numIncStep]
        rw [if_neg ha2]
      have hstepB : seqIncStep fs ri (seqVisit fs ri fuel) p seqA a = seqA := by
        simp only [seqIncStep]
        rw [if_neg ha2]
      rw [hstepA, hstepB]
      exact ih stA seqA nums0 hvis hnums hctr

theorem scanFileNum_spec (fs : FS) (ri : Chars → Chars → Chars) :
    ∀ fuel (st : NumSt) p, st.counter = st.numbers.length →
      scanFileNum fs ri fuel st p =
        ⟨(seqVisit fs ri fuel st.visited p).1,
         (List.foldl firstSeenStep st.numbers (seqVisit fs ri fuel st.visited p).2).length,
         List.foldl firstSeenStep st.numbers (seqVisit fs ri fuel st.visited p).2⟩ := by
  intro fuel
  induction fuel with
  | zero =>
    intro st p hctr
    obtain ⟨vis, ctr, nums⟩ := st
    simp only [scanFileNum, seqVisit, List.foldl_nil]
    simp at hctr
    rw [hctr]
  | succ fuel ih =>
    intro st p hctr
    simp only [scanFileNum, seqVisit]
    by_cases hvis : p ∈ st.visited
    · rw [if_pos hvis, if_pos hvis]
      obtain ⟨vis, ctr, nums⟩ := st
      simp only [List.foldl_nil]
      simp at hctr
      rw [hctr]
    · rw [if_neg hvis, if_neg hvis]
      cases hlk : lookupFS fs p with
      | none =>
        simp only [List.foldl_nil]
        rw [hctr]
      | some raw =>
        simp only []
        have hfold := numIncFold_spec fs ri fuel p ih (extractIncludes raw)
          ⟨p :: st.visited, st.counter, st.numbers⟩
          (p :: st.visited, ([] : List Chars)) st.numbers
          (by simp) (by simp) (by simpa using hctr)
        rw [hfold]
        rw [numKeyFold_spec (numKeysOfContent raw) _ (by simp)]
        simp only []
        rw [← List.foldl_append]

theorem compute_citation_numbers_eq_firstSeen (fs : FS)
    (ri : Chars → Chars → Chars) (root : Chars) :
    compute_citation_numbers fs ri root = firstSeen (apparentKeySeq fs ri root) := by
  unfold compute_citation_numbers firstSeen apparentKeySeq
  rw [scanFileNum_spec fs ri (fs.length + 2) ⟨[], 0, []⟩ root rfl]

/-! First-seen numbering is gap-free and never renumbers. -/

theorem lookupNum_none_iff :
    ∀ (m : List (Chars × Nat)) k, lookupNum m k = none ↔ k ∉ m.map Prod.fst := by
  intro m
  induction m with
  | nil => intro k; simp [lookupNum]
  | cons e m ih =>
    intro k
    obtain ⟨k', n⟩ := e
    simp only [lookupNum]
    by_cases hk : k' = k
    · rw [if_pos hk]
      simp [hk]
    · rw [if_neg hk]
      rw [ih k]
      constructor
      · intro hnot hmem
        rw [List.map_cons, List.mem_cons] at hmem
        rcases hmem with heq | hm
        · exact hk heq.symm
        · exact hnot hm
      · intro hnot hm
        apply hnot
        rw [List.map_cons, List.mem_cons]
        exact Or.inr hm

theorem firstSeen_foldl_inv :
    ∀ ks (nums : List (Chars × Nat)),
      nums.map Prod.snd = List.range' 1 nums.length →
      (nums.map Prod.fst).Nodup →
      ((List.foldl firstSeenStep nums ks).map Prod.snd
        = List.range' 1 (List.foldl firstSeenStep nums ks).length) ∧
      ((List.foldl firstSeenStep nums ks).map Prod.fst).Nodup := by
  intro ks
  induction ks with
  | nil => intro nums h1 h2; exact ⟨h1, h2⟩
  | cons k ks ih =>
    intro nums h1 h2
    simp only [List.foldl_cons]
    by_cases hlk : (lookupNum nums k).isSome
    · have : firstSeenStep nums k = nums := by
        simp only [firstSeenStep]; rw [if_pos hlk]
      rw [this]
      exact ih nums h1 h2
    · have hnone : lookupNum nums k = none := by
        cases h : lookupNum nums k with
        | none => rfl
        | some v => rw [h] at hlk; simp at hlk
      have hmem : k ∉ nums.map Prod.fst := (lookupNum_none_iff nums k).mp hnone
      have hstep : firstSeenStep nums k = nums ++ [(k, nums.length + 1)] := by
        simp only [firstSeenStep]; rw [if_neg hlk]
      rw [hstep]
      apply ih
      · simp only [List.map_append, List.length_append]
        rw [h1]
        have := List.range'_1_concat 1 nums.length
        simp at this ⊢
        rw [this]
        simp
        omega
      · simp only [List.map_append]
        rw [List.nodup_append]
        refine ⟨h2, by simp, ?_⟩
        intro x hx
        simp
        intro hxk
        rw [hxk] at hx
        exact hmem hx

theorem lookupNum_eq_of_mem_nodup :
    ∀ (m : List (Chars × Nat)) k n, (m.map Prod.fst).Nodup →
      (k, n) ∈ m → lookupNum m k = some n := by
  intro m
  induction m with
  | nil => intro k n _ hm; simp at hm
  | cons e m ih =>
    intro k n hnd hm
    obtain ⟨k', n'⟩ := e
    rw [List.map_cons, List.nodup_cons] at hnd
    rcases List.mem_cons.mp hm with heq | hm'
    · have hk : k' = k := (congrArg Prod.fst heq).symm
      have hn : n' = n := (congrArg Prod.snd heq).symm
      simp only [lookupNum]
      rw [if_pos hk, hn]
    · have hk : k' ≠ k := by
        intro hcontra
        subst hcontra
        have hmm : k' ∈ m.map Prod.fst := List.mem_map_of_mem Prod.fst hm'
        exact hnd.1 hmm
      simp only [lookupNum]
      rw [if_neg hk]
      exact ih k n hnd.2 hm'

/-!
Concrete document trees used as explicit inputs for the claims.  The
directory-resolution parameter models a flat project directory where
`_resolve_included_path` appends the default `.tex` suffix. -/

/-- Example directory-resolution rule: append `.tex` when the argument
has no suffix. -/
def exResolve (_ : Chars) (a : Chars) : Chars :=
  if '.' ∈ a then a else a ++ str ".tex"

/-- Root citing `a` on the line before the inclusion of `b.tex`. -/
def fsC1 : FS :=
  [(str "main.tex", str "\\cite{a}\n\\input{b}\n"),
   (str "b.tex", str "\\cite{b}")]

/-- Root whose only inclusion directive is commented out; the included
file holds one live and one commented-out citation. -/
def fsC3 : FS :=
  [(str "root.tex", str "text % \\input{b}"),
   (str "b.tex", str "\\cite{x} % \\cite{dead}")]

/-- Claim C1, counterexample: in `fsC1` the root cites `a` on the line
before `\input{b}`, yet the Numbering Pass assigns `b → 1` and `a → 2`,
because `compute_citation_numbers` follows all includes of a file before
numbering that file's own text.  The claim as stated — a citation
occurring in the root file's text before an inclusion directive is
numbered before any citation inside the included file — is false. -/
theorem claim_c1_counterexample :
    lookupNum (compute_citation_numbers fsC1 exResolve (str "main.tex")) (str "a")
      = some 2 ∧
    lookupNum (compute_citation_numbers fsC1 exResolve (str "main.tex")) (str "b")
      = some 1 ∧
    compute_citation_numbers fsC1 exResolve (str "main.tex")
      = [(str "b", 1), (str "a", 2)] := by
  decide

/-- Claim C1, amended: `compute_citation_numbers` assigns each key a
positive sequence number by first-appearance order over the same
recursive, depth-first, raw-inclusion-order traversal as the Scanner,
with numbering done on content-filtered text — where, as in the
traversal both passes share, every file's includes are processed before
the file's own text, so citations of an included file are numbered
before every citation in the including file's own text regardless of
the directive's position.  Formally the pass equals first-seen
numbering of `apparentKeySeq`, the spec-side key sequence of exactly
that traversal (keys of one command's list appearing left to right). -/
theorem claim_c1_amended (fs : FS) (ri : Chars → Chars → Chars) (root : Chars) :
    compute_citation_numbers fs ri root = firstSeen (apparentKeySeq fs ri root) :=
  compute_citation_numbers_eq_firstSeen fs ri root

/-- Claim C2: for every document source tree, the numbers assigned by
`compute_citation_numbers` are exactly `{1..N}` in insertion order
(unique, gap-free, starting at 1), each key is assigned at most once
(so a key seen again later is never renumbered), and looking a key up
returns its single assigned number. -/
theorem claim_c2_gap_free (fs : FS) (ri : Chars → Chars → Chars) (root : Chars) :
    ((compute_citation_numbers fs ri root).map Prod.snd
      = List.range' 1 (compute_citation_numbers fs ri root).length) ∧
    ((compute_citation_numbers fs ri root).map Prod.fst).Nodup ∧
    (∀ k n, (k, n) ∈ compute_citation_numbers fs ri root →
      lookupNum (compute_citation_numbers fs ri root) k = some n) := by
  have hbase := firstSeen_foldl_inv (apparentKeySeq fs ri root) [] (by simp) (by simp)
  rw [compute_citation_numbers_eq_firstSeen fs ri root]
  refine ⟨hbase.1, hbase.2, ?_⟩
  intro k n hm
  exact lookupNum_eq_of_mem_nodup _ k n hbase.2 hm

/-- Claim C3: inclusion discovery ignores comments while occurrence
scanning and numbering respect them.  (1) A text whose backslash-free
prefix ends in `%` yields the same include list as the commented tail
alone: commented-out inclusion directives are still discovered, since
both traversals extract includes from the raw text.  (2) The
comment-stripping used by the Numbering Pass cuts a line at the first
unescaped `%`, so a commented-out citation contributes no text to
numbering.  (3) The Scanner's per-line occurrence extraction of a line
with a trailing comment equals that of the line with the comment
removed, so commented-out citations yield no occurrences.  (4) In the
concrete tree `fsC3`, whose only inclusion directive sits after an
unescaped `%`, both passes still traverse `b.tex`: the Scanner reports
the occurrence of `x` (and nothing for the commented-out `dead`), and
the Numbering Pass assigns exactly `x → 1`. -/
theorem claim_c3_comment_handling :
    (∀ u v : Chars, '\\' ∉ u →
      extractIncludes (u ++ '%' :: v) = extractIncludes v) ∧
    (∀ u v : Chars, '%' ∉ u → (∀ y, u.getLast? = some y → y ≠ '\\') →
      stripLineComment (u ++ '%' :: v) = u) ∧
    (∀ u v : Chars, '%' ∉ u → (∀ y, u.getLast? = some y → y ≠ '\\') →
      lineOccs (u ++ '%' :: v) = lineOccs u) ∧
    (scanVisited fsC3 exResolve (str "root.tex") = [str "b.tex", str "root.tex"] ∧
     scan_tex_project_citations fsC3 exResolve (str "root.tex")
       = [(str "x", [⟨str "b.tex", 1, 7, str "\\cite{x}"⟩])] ∧
     compute_citation_numbers fsC3 exResolve (str "root.tex") = [(str "x", 1)]) := by
  refine ⟨?_, stripLineComment_clean_append, lineOccs_clean_append, by decide⟩
  intro u v hu
  have h1 : '\\' ∉ u ++ ['%'] := by
    intro h
    rcases List.mem_append.mp h with h' | h'
    · exact hu h'
    · simp at h'
  have h2 : u ++ '%' :: v = (u ++ ['%']) ++ v := by simp
  rw [h2]
  exact extractIncludes_clean_append (u ++ ['%']) v h1

/-- Claim C3, witness: part (1) at `u = "text "`, `v = "\input{b}"` and
part (3) at `u = "\cite{k} "`, `v = "\cite{dead}"`. -/
theorem claim_c3_witness :
    extractIncludes (str "text " ++ '%' :: str "\\input{b}")
      = extractIncludes (str "\\input{b}") ∧
    lineOccs (str "\\cite{k} " ++ '%' :: str "\\cite{dead}")
      = lineOccs (str "\\cite{k} ") := by
  constructor
  · exact claim_c3_comment_handling.1 (str "text ") (str "\\input{b}") (by decide)
  · exact claim_c3_comment_handling.2.2.1 (str "\\cite{k} ") (str "\\cite{dead}")
      (by decide)
      (by intro y hy; injection hy with h; rw [← h]; decide)

/-- Claim C4: every key the Scanner reports from a line carries the
1-based column of the key's first (non-whitespace) character within the
comment-trimmed line: the key text itself is found at that offset of the
trimmed line, so the column computation is invariant to the
comma-splitting of the key list. -/
theorem claim_c4_column_invariant (line k : Chars) (c : Nat) (sn : Chars)
    (h : (k, c, sn) ∈ lineOccs line) :
    1 ≤ c ∧ k ≠ [] ∧ isWs (k.headD ' ') = false ∧
    ((stripLineComment line).drop (c - 1)).take k.length = k := by
  simp only [lineOccs] at h
  split at h
  · simp only [scanSegOccs, List.mem_map] at h
    obtain ⟨⟨k0, c0⟩, hk0, hf⟩ := h
    have hk : k0 = k := congrArg (fun t => t.1) hf
    have hc : c0 = c := congrArg (fun t => t.2.1) hf
    rw [← hk, ← hc]
    exact segCitesGo_sound _ (stripLineComment line) 0 k0 c0 hk0
  · simp at h

/-- Claim C4, witness: on the line `\cite{aaa, bbb,ccc}` the key `bbb`
is reported at column 12, the offset of its first character. -/
theorem claim_c4_witness :
    1 ≤ 12 ∧ str "bbb" ≠ [] ∧ isWs ((str "bbb").headD ' ') = false ∧
    ((stripLineComment (str "\\cite{aaa, bbb,ccc}")).drop (12 - 1)).take
      (str "bbb").length = str "bbb" :=
  claim_c4_column_invariant (str "\\cite{aaa, bbb,ccc}") (str "bbb") 12
    (mkSnippet (str "\\cite{aaa, bbb,ccc}")) (by decide)

/-- Claim C5, failing input `\cite{a,,b}`: the completely empty entry
between the two commas makes `_KEY_ITEM_RE.match` fail (its group needs
at least one non-comma character and there is no whitespace to
backtrack into), and the scanner's key loop breaks: the non-empty key
`b` later in the same list yields no occurrence, although the Numbering
Pass — splitting the same list on commas — still counts both `a` and
`b`.  A whitespace-only entry (`\cite{a, ,b}`), by contrast, is dropped
silently with `b` still reported, as the claim describes. -/
theorem claim_c5_empty_entry_stops_scan :
    scanSegOccs (str "\\cite{a,,b}") = [(str "a", 7, str "\\cite{a,,b}")] ∧
    numKeysOfContent (str "\\cite{a,,b}") = [str "a", str "b"] ∧
    scanSegOccs (str "\\cite{a, ,b}")
      = [(str "a", 7, str "\\cite{a, ,b}"), (str "b", 11, str "\\cite{a, ,b}")] := by
  decide

/-!
Claim C6: snippet lengths.  The truncation appends the three-character
marker after the first 240 characters, so a truncated snippet has 243
characters. -/

/-- A comment-free 241-character line segment holding one citation. -/
def c6seg : Chars := str "\\cite{k}" ++ List.replicate 233 'a'

set_option maxRecDepth 20000 in
/-- Claim C6, counterexample: the segment `c6seg` is 241 characters
long once stripped, so its snippet is truncated — to 240 characters
plus the three-character marker, i.e. 243 characters, not at most
240. -/
theorem claim_c6_counterexample :
    scanSegOccs c6seg = [(str "k", 7, c6seg.take 240 ++ snippetMarker)] ∧
    (c6seg.take 240 ++ snippetMarker).length = 243 := by
  decide

theorem scanSegOccs_snippet_bound :
    ∀ seg kco, kco ∈ scanSegOccs seg → (kco.2.2 : Chars).length ≤ 243 := by
  intro seg kco h
  obtain ⟨k, c, sn⟩ := kco
  have := scanSegOccs_snippet seg k c sn h
  simp only []
  rw [this]
  exact mkSnippet_length_le seg

theorem lineOccs_snippet_bound :
    ∀ line kco, kco ∈ lineOccs line → (kco.2.2 : Chars).length ≤ 243 := by
  intro line kco h
  simp only [lineOccs] at h
  split at h
  · exact scanSegOccs_snippet_bound _ kco h
  · simp at h

theorem occAdd_bound (P : Occ → Prop) :
    ∀ m k o, (∀ e ∈ m, ∀ o' ∈ e.2, P o') → P o →
      ∀ e ∈ occAdd m k o, ∀ o' ∈ e.2, P o' := by
  intro m
  induction m with
  | nil =>
    intro k o _ hPo e he o' ho'
    simp [occAdd] at he
    rw [he] at ho'
    simp at ho'
    rw [ho']
    exact hPo
  | cons e0 m ih =>
    intro k o hm hPo e he o' ho'
    obtain ⟨k0, os0⟩ := e0
    simp only [occAdd] at he
    by_cases hk : k0 = k
    · rw [if_pos hk] at he
      rcases List.mem_cons.mp he with heq | hm'
      · rw [heq] at ho'
        simp at ho'
        rcases ho' with h1 | h1
        · exact hm (k0, os0) (by simp) o' h1
        · rw [h1]
          exact hPo
      · exact hm e (by simp [hm']) o' ho'
    · rw [if_neg hk] at he
      rcases List.mem_cons.mp he with heq | hm'
      · rw [heq] at ho'
        exact hm (k0, os0) (by simp) o' ho'
      · exact ih k o (fun e' he' => hm e' (by simp [he'])) hPo e hm' o' ho'

theorem foldl_occAddLine_bound (P : Occ → Prop) (file : Chars) (idx : Nat) :
    ∀ (l : List (Chars × Nat × Chars)) occ,
      (∀ e ∈ occ, ∀ o' ∈ e.2, P o') →
      (∀ kco ∈ l, P ⟨file, idx, kco.2.1, kco.2.2⟩) →
      ∀ e ∈ l.foldl (occAddLine file idx) occ, ∀ o' ∈ e.2, P o' := by
  intro l
  induction l with
  | nil => intro occ hocc _ e he; exact hocc e he
  | cons kco l ih =>
    intro occ hocc hl e he
    simp only [List.foldl_cons] at he
    apply ih (occAddLine file idx occ kco)
    · exact occAdd_bound P occ kco.1 _ hocc (hl kco (by simp))
    · intro kco' hk'; exact hl kco' (by simp [hk'])
    · exact he

theorem scanLines_bound (P : Occ → Prop) (file : Chars)
    (hline : ∀ idx line kco, kco ∈ lineOccs line → P ⟨file, idx, kco.2.1, kco.2.2⟩) :
    ∀ (lines : List Chars) inIff inBlock idx occ,
      (∀ e ∈ occ, ∀ o' ∈ e.2, P o') →
      ∀ e ∈ scanLines file inIff inBlock idx lines occ, ∀ o' ∈ e.2, P o' := by
  intro lines
  induction lines with
  | nil => intro inIff inBlock idx occ hocc e he; exact hocc e he
  | cons line rest ih =>
    intro inIff inBlock idx occ hocc e he
    simp only [scanLines] at he
    repeat' split at he
    all_goals
      first
      | exact ih _ _ _ occ hocc e he
      | · refine ih _ _ _ _ ?_ e he
          apply foldl_occAddLine_bound P file idx (lineOccs line) occ hocc
          intro kco hk
          exact hline idx line kco hk

theorem scanFileTex_bound (fs : FS) (ri : Chars → Chars → Chars) (P : Occ → Prop)
    (hline : ∀ file idx line kco, kco ∈ lineOccs line →
      P ⟨file, idx, kco.2.1, kco.2.2⟩) :
    ∀ fuel (st : ScanSt) p,
      (∀ e ∈ st.occs, ∀ o' ∈ e.2, P o') →
      ∀ e ∈ (scanFileTex fs ri fuel st p).occs, ∀ o' ∈ e.2, P o' := by
  intro fuel
  induction fuel with
  | zero => intro st p hocc e he; exact hocc e he
  | succ fuel ih =>
    intro st p hocc
    simp only [scanFileTex]
    by_cases hvis : p ∈ st.visited
    · rw [if_pos hvis]; exact hocc
    · rw [if_neg hvis]
      cases hlk : lookupFS fs p with
      | none => exact hocc
      | some raw =>
        simp only []
        have hfold : ∀ (incs : List Chars) (stA : ScanSt),
            (∀ e ∈ stA.occs, ∀ o' ∈ e.2, P o') →
            ∀ e ∈ (incs.foldl (texIncStep fs ri (scanFileTex fs ri fuel) p) stA).occs,
              ∀ o' ∈ e.2, P o' := by
          intro incs
          induction incs with
          | nil => intro stA hA e he; exact hA e he
          | cons a incs ihInc =>
            intro stA hA
            simp only [List.foldl_cons]
            apply ihInc
            simp only [texIncStep]
            split
            · split
              · exact ih stA _ hA
              · exact hA
            · exact hA
        apply scanLines_bound P p (fun idx line kco hk => hline p idx line kco hk)
        apply hfold
        exact hocc

/-- Claim C6, amended: every Occurrence's contextSnippet is at most 243
characters long (240 content characters plus the three-character marker
`â€¦` — the double-encoded ellipsis literal of the source — when the
stripped source segment exceeds 240 characters); segments of at most
240 characters are kept verbatim. -/
theorem claim_c6_snippet_bound (fs : FS) (ri : Chars → Chars → Chars) (root : Chars)
    (k : Chars) (os : List Occ) (o : Occ)
    (hk : (k, os) ∈ scan_tex_project_citations fs ri root) (ho : o ∈ os) :
    o.snippet.length ≤ 243 := by
  have := scanFileTex_bound fs ri (fun o' => o'.snippet.length ≤ 243)
    (fun file idx line kco hkco => lineOccs_snippet_bound line kco hkco)
    (fs.length + 2) ⟨[], []⟩ root (by intro e he; simp at he)
  exact this (k, os) hk o ho

/-- Claim C6, witness: the single occurrence of `x` in the concrete
tree `fsC3` has a snippet of at most 243 characters. -/
theorem claim_c6_witness :
    (⟨str "b.tex", 1, 7, str "\\cite{x}"⟩ : Occ).snippet.length ≤ 243 :=
  claim_c6_snippet_bound fsC3 exResolve (str "root.tex") (str "x")
    [⟨str "b.tex", 1, 7, str "\\cite{x}"⟩] ⟨str "b.tex", 1, 7, str "\\cite{x}"⟩
    (by decide) (by decide)

/-!
pdf_lineno.py: the margin-band printed-line-number machinery.  Page
geometry (PyMuPDF), the synctex binary and `auto_detect_margin_band`'s
rendering-dependent clustering are external collaborators; page
coordinates are rationals, page text tokens are passed as data, and
band detection is a parameter returning `none` for the raised
"failed to find line numbers band" condition. -/

/-- Side of the margin band (`band["side"]`). -/
inductive Side where
  | left
  | right
deriving DecidableEq

/-- The margin-band descriptor computed by `auto_detect_margin_band`. -/
structure Band where
  side : Side
  xcut : ℚ
  xmin : ℚ
  xmax : ℚ
  ytol : ℚ
  pageWidth : ℚ
deriving DecidableEq

/-- One page text token `(x0, y0, x1, y1, text)`. -/
structure Word where
  x0 : ℚ
  y0 : ℚ
  x1 : ℚ
  y1 : ℚ
  txt : Chars
deriving DecidableEq

/-- `re.fullmatch(r"\d{1,5}", s)` as a Boolean predicate. -/
def isDigits1to5 (s : Chars) : Bool :=
  s.all Char.isDigit && decide (1 ≤ s.length) && decide (s.length ≤ 5)

/-- `int(s)` on a digit string. -/
def natOfDigits (s : Chars) : Nat :=
  s.foldl (fun acc c => acc * 10 + (c.toNat - 48)) 0

/-- The `align` anchor parameter of `find_nearest_margin_lineno`. -/
inductive Align where
  | top
  | center
  | bottom
deriving DecidableEq

/-- The `y_ref` helper: anchor y-coordinate of a token box. -/
def yRef (al : Align) (y0 y1 : ℚ) : ℚ :=
  match al with
  | .top => y0
  | .center => (y0 + y1) / 2
  | .bottom => y1

/-- One accepted candidate: stripped token text and vertical distance. -/
structure Cand where
  txt : Chars
  dy : ℚ
deriving DecidableEq

/-- The candidate filter of `find_nearest_margin_lineno`: numeric
tokens within the padded horizontal extent (pad 2.0) on the band's
side, with their absolute anchored vertical distance to the target. -/
def candidatesOf (words : List Word) (band : Band) (targetY : ℚ) (al : Align) :
    List Cand :=
  words.filterMap (fun w =>
    let s := pystrip w.txt
    if isDigits1to5 s then
      if w.x1 < band.xmin - 2 ∨ w.x0 > band.xmax + 2 then none
      else
        if band.side = Side.right ∧ (w.x0 + w.x1) / 2 < band.pageWidth / 2 then none
        else if band.side = Side.left ∧ (w.x0 + w.x1) / 2 > band.pageWidth / 2 then none
        else some ⟨s, |yRef al w.y0 w.y1 - targetY|⟩
    else none)

/-- `candidates.sort(key=dy)` followed by `candidates[0]`: the first
candidate of minimal distance (Python's sort is stable). -/
def pickNearest : List Cand → Option Cand
  | [] => none
  | c :: cs => some (cs.foldl (fun b c' => if c'.dy < b.dy then c' else b) c)

/-- The effective acceptance tolerance for the bottom anchor:
`tol = max(tol, 0.9*tol + 1.5)`. -/
def bottomTol (t : ℚ) : ℚ := max t (9/10 * t + 3/2)

/-- Result of `find_nearest_margin_lineno`:
`{"lineno": ..., "candidate_count": ...}`. -/
structure LinenoResult where
  lineno : Option Nat
  count : Nat
deriving DecidableEq

/-- `find_nearest_margin_lineno` over the given page tokens. -/
def find_nearest_margin_lineno (words : List Word) (band : Band) (targetY : ℚ)
    (al : Align) : LinenoResult :=
  let cands := candidatesOf words band targetY al
  let tol := if al = Align.bottom then bottomTol band.ytol else band.ytol
  match pickNearest cands with
  | none => ⟨none, cands.length⟩
  | some best =>
    ⟨if best.dy ≤ tol then some (natOfDigits best.txt) else none, cands.length⟩

/-- Modelled from the claim's words: the tolerance C8 asserts for the
bottom anchor, 90% of the base tolerance plus the small constant. -/
def claimedBottomTol (t : ℚ) : ℚ := 9/10 * t + 3/2

theorem pickNearest_spec :
    ∀ l b, pickNearest l = some b → b ∈ l ∧ ∀ c ∈ l, b.dy ≤ c.dy := by
  have hfold : ∀ (cs : List Cand) (c : Cand),
      (cs.foldl (fun b c' => if c'.dy < b.dy then c' else b) c) ∈ c :: cs ∧
      (cs.foldl (fun b c' => if c'.dy < b.dy then c' else b) c).dy ≤ c.dy ∧
      ∀ x ∈ cs, (cs.foldl (fun b c' => if c'.dy < b.dy then c' else b) c).dy ≤ x.dy := by
    intro cs
    induction cs with
    | nil => intro c; exact ⟨by simp, le_refl _, by simp⟩
    | cons c' cs ih =>
      intro c
      simp only [List.foldl_cons]
      obtain ⟨hmem, hle, hall⟩ := ih (if c'.dy < c.dy then c' else c)
      have hle2 : (if c'.dy < c.dy then c' else c).dy ≤ c.dy ∧
          (if c'.dy < c.dy then c' else c).dy ≤ c'.dy := by
        by_cases h : c'.dy < c.dy
        · rw [if_pos h]; exact ⟨le_of_lt h, le_refl _⟩
        · rw [if_neg h]; exact ⟨le_refl _, le_of_not_lt h⟩
      refine ⟨?_, le_trans hle hle2.1, ?_⟩
      · rcases List.mem_cons.mp hmem with heq | hm
        · rw [heq]
          by_cases h : c'.dy < c.dy
          · rw [if_pos h]; simp
          · rw [if_neg h]; simp
        · simp [hm]
      · intro x hx
        rcases List.mem_cons.mp hx with heq | hm
        · rw [heq]; exact le_trans hle hle2.2
        · exact hall x hm
  intro l b h
  cases l with
  | nil => simp [pickNearest] at h
  | cons c cs =>
    simp only [pickNearest] at h
    have h' := Option.some.inj h
    obtain ⟨hmem, hle, hall⟩ := hfold cs c
    rw [h'] at hmem hle hall
    refine ⟨hmem, ?_⟩
    intro x hx
    rcases List.mem_cons.mp hx with heq | hm
    · rw [heq]; exact hle
    · exact hall x hm

theorem find_nearest_bottom_eq (words : List Word) (band : Band) (y : ℚ) :
    find_nearest_margin_lineno words band y Align.bottom =
      (match pickNearest (candidatesOf words band y Align.bottom) with
       | none => ⟨none, (candidatesOf words band y Align.bottom).length⟩
       | some best =>
         ⟨if best.dy ≤ bottomTol band.ytol then some (natOfDigits best.txt) else none,
          (candidatesOf words band y Align.bottom).length⟩) := by
  unfold find_nearest_margin_lineno
  rw [if_pos rfl]

theorem c8_candidates_eval :
    candidatesOf [⟨1, 15, 5, 20, str "7"⟩] ⟨Side.left, 0, 0, 10, 20, 100⟩
      0 Align.bottom = [⟨['7'], 20⟩] := by
  simp only [candidatesOf, List.filterMap]
  norm_num [pystrip, rstrip, isWs, isDigits1to5, yRef, str]
  decide

/-- Claim C8, counterexample: for the base tolerance 20, the code's
bottom-anchor acceptance tolerance is `max(20, 0.9*20+1.5) = 20`, not
`0.9*20 + 1.5 = 19.5` as the claim states for every tolerance; a
candidate at distance exactly 20 is accepted by the code although the
claimed tolerance would reject it. -/
theorem claim_c8_counterexample :
    (find_nearest_margin_lineno [⟨1, 15, 5, 20, str "7"⟩]
      ⟨Side.left, 0, 0, 10, 20, 100⟩ 0 Align.bottom).lineno = some 7 ∧
    bottomTol 20 = 20 ∧
    claimedBottomTol 20 = 39/2 ∧
    ¬((20 : ℚ) ≤ claimedBottomTol 20) := by
  refine ⟨?_, ?_, by norm_num [claimedBottomTol], by norm_num [claimedBottomTol]⟩
  · rw [find_nearest_bottom_eq, c8_candidates_eval]
    simp only [pickNearest, List.foldl]
    rw [if_pos (show ((⟨['7'], 20⟩ : Cand)).dy ≤ bottomTol 20 from by
      rw [bottomTol]; exact le_max_left _ _)]
    decide
  · rw [bottomTol, max_eq_left (by norm_num)]

theorem bottomTol_small : ∀ t : ℚ, t ≤ 15 → bottomTol t = 9/10 * t + 3/2 := by
  intro t ht
  rw [bottomTol, max_eq_right]
  linarith

theorem bottomTol_large : ∀ t : ℚ, 15 ≤ t → bottomTol t = t := by
  intro t ht
  rw [bottomTol, max_eq_left]
  linarith

theorem find_nearest_accept :
    ∀ words band y n,
      (find_nearest_margin_lineno words band y Align.bottom).lineno = some n →
      ∃ c ∈ candidatesOf words band y Align.bottom,
        c.dy ≤ bottomTol band.ytol ∧
        (∀ c' ∈ candidatesOf words band y Align.bottom, c.dy ≤ c'.dy) ∧
        natOfDigits c.txt = n := by
  intro words band y n h
  rw [find_nearest_bottom_eq] at h
  cases hp : pickNearest (candidatesOf words band y Align.bottom) with
  | none => rw [hp] at h; simp at h
  | some best =>
    rw [hp] at h
    simp only [] at h
    by_cases hdy : best.dy ≤ bottomTol band.ytol
    · rw [if_pos hdy] at h
      obtain ⟨hmem, hmin⟩ := pickNearest_spec _ best hp
      exact ⟨best, hmem, hdy, hmin, Option.some.inj h⟩
    · rw [if_neg hdy] at h
      simp at h

theorem find_nearest_reject :
    ∀ words band y,
      (∀ c ∈ candidatesOf words band y Align.bottom,
        ¬(c.dy ≤ bottomTol band.ytol)) →
      (find_nearest_margin_lineno words band y Align.bottom).lineno = none := by
  intro words band y hall
  rw [find_nearest_bottom_eq]
  cases hp : pickNearest (candidatesOf words band y Align.bottom) with
  | none => simp
  | some best =>
    obtain ⟨hmem, _⟩ := pickNearest_spec _ best hp
    simp only []
    rw [if_neg (hall best hmem)]

/-- Claim C8, amended: with the default bottom anchor the acceptance
tolerance applied to the nearest candidate is `max(t, 0.9·t + 1.5)` —
equal to `0.9·t + 1.5` exactly when `t ≤ 15` and to the raw tolerance
`t` otherwise; the nearest candidate by absolute vertical distance is
accepted only if its distance is within that tolerance, and otherwise
no printed line number is reported. -/
theorem claim_c8_amended :
    (∀ t : ℚ, bottomTol t = max t (9/10 * t + 3/2)) ∧
    (∀ t : ℚ, t ≤ 15 → bottomTol t = 9/10 * t + 3/2) ∧
    (∀ t : ℚ, 15 ≤ t → bottomTol t = t) ∧
    (∀ words band y n,
      (find_nearest_margin_lineno words band y Align.bottom).lineno = some n →
      ∃ c ∈ candidatesOf words band y Align.bottom,
        c.dy ≤ bottomTol band.ytol ∧
        (∀ c' ∈ candidatesOf words band y Align.bottom, c.dy ≤ c'.dy) ∧
        natOfDigits c.txt = n) ∧
    (∀ words band y,
      (∀ c ∈ candidatesOf words band y Align.bottom,
        ¬(c.dy ≤ bottomTol band.ytol)) →
      (find_nearest_margin_lineno words band y Align.bottom).lineno = none) :=
  ⟨fun _ => rfl, bottomTol_small, bottomTol_large, find_nearest_accept,
   find_nearest_reject⟩

theorem c8_candidates_eval2 :
    candidatesOf [⟨1, 15, 5, 20, str "7"⟩] ⟨Side.left, 0, 0, 10, 1, 100⟩
      0 Align.bottom = [⟨['7'], 20⟩] := by
  simp only [candidatesOf, List.filterMap]
  norm_num [pystrip, rstrip, isWs, isDigits1to5, yRef, str]
  decide

/-- Claim C8, witness: the small-tolerance formula at `t = 10` and the
rejection branch on a page whose only candidate is out of tolerance. -/
theorem claim_c8_witness :
    bottomTol 10 = 9/10 * 10 + 3/2 ∧
    (find_nearest_margin_lineno [⟨1, 15, 5, 20, str "7"⟩]
      ⟨Side.left, 0, 0, 10, 1, 100⟩ 0 Align.bottom).lineno = none := by
  constructor
  · exact claim_c8_amended.2.1 10 (by norm_num)
  · apply claim_c8_amended.2.2.2.2
    intro c hc
    have hc' : c = ⟨['7'], 20⟩ := by
      rw [c8_candidates_eval2] at hc
      simpa using hc
    rw [hc']
    intro hle
    have htol : bottomTol 1 = 12/5 := by
      rw [bottomTol, max_eq_right (by norm_num)]
      norm_num
    simp only [] at hle
    rw [htol] at hle
    norm_num at hle

/-!
Claim C7: `PdfLinenoResolver` band caching.  The resolver instance's
state is its `_band` field; `auto_detect_margin_band` is a parameter
from the page hint to an optional band, `none` standing for the raised
"failed to find line numbers band" (the detection itself depends only
on the fixed rendered document and the hint).  `synctex_view` results
are inputs (`none` = the call failed), and the printed-line-number
lookup `find_nearest_margin_lineno` is abstracted over the page
geometry as `linenoAt`. -/

/-- Per-instance resolver state: the cached `_band`. -/
structure RState where
  band : Option Band
deriving DecidableEq

/-- `_ensure_band`: return the cached band, or run detection, caching
only on success (a raising `auto_detect_margin_band` leaves `_band`
unset).  Returns the band if any, the new state, and the number of
detection attempts made (0 or 1). -/
def ensure_band (detect : Nat → Option Band) (st : RState) (hint : Nat) :
    Option Band × RState × Nat :=
  match st.band with
  | some b => (some b, st, 0)
  | none =>
    match detect hint with
    | some b => (some b, ⟨some b⟩, 1)
    | none => (none, st, 1)

/-- `PdfLinenoResolver.resolve`: on synctex failure return
`(None, None)` without touching the band; otherwise ensure the band
(catching its failure as "no band") and look up the printed line
number when a band is available. -/
def resolve (detect : Nat → Option Band)
    (linenoAt : Band → Nat → ℚ → Option Nat) (st : RState)
    (synctex : Option (Nat × ℚ)) :
    (Option Nat × Option Nat) × RState × Nat :=
  match synctex with
  | none => ((none, none), st, 0)
  | some pg =>
    let r := ensure_band detect st pg.1
    let lineno :=
      match r.1 with
      | some b => linenoAt b pg.1 pg.2
      | none => none
    ((some pg.1, lineno), r.2.1, r.2.2)

/-- A sequence of `resolve` calls on one resolver instance, returning
the outputs, the final state and the total number of band-detection
attempts. -/
def resolveMany (detect : Nat → Option Band)
    (linenoAt : Band → Nat → ℚ → Option Nat) :
    RState → List (Option (Nat × ℚ)) →
      List (Option Nat × Option Nat) × RState × Nat
  | st, [] => ([], st, 0)
  | st, s :: ss =>
    let r := resolve detect linenoAt st s
    let rest := resolveMany detect linenoAt r.2.1 ss
    (r.1 :: rest.1, rest.2.1, r.2.2 + rest.2.2)

/-- Claim C7, counterexample: when band detection fails (no plausible
margin cluster), two resolve calls with successful synctex lookups run
band detection twice — the failure is not cached, so detection is
retried per occurrence, contradicting "computed at most once per
resolver lifetime" and "never retried per occurrence".  Each occurrence
does degrade to an absent line number with the page still reported. -/
theorem claim_c7_counterexample :
    resolveMany (fun _ => none) (fun _ _ _ => none) ⟨none⟩
        [some (1, 0), some (1, 0)]
      = ([(some 1, none), (some 1, none)], ⟨none⟩, 2) ∧ 1 < 2 := by
  constructor
  · rfl
  · decide

theorem resolveMany_cached (detect : Nat → Option Band)
    (linenoAt : Band → Nat → ℚ → Option Nat) (b : Band) :
    ∀ (ss : List (Option (Nat × ℚ))) (st : RState), st.band = some b →
      (resolveMany detect linenoAt st ss).2.2 = 0 ∧
      (resolveMany detect linenoAt st ss).2.1 = st := by
  intro ss
  induction ss with
  | nil => intro st _; exact ⟨rfl, rfl⟩
  | cons s ss ih =>
    intro st hb
    cases s with
    | none =>
      simp only [resolveMany, resolve]
      rw [Nat.zero_add]
      exact ih st hb
    | some pg =>
      simp only [resolveMany, resolve, ensure_band, hb]
      rw [Nat.zero_add]
      exact ih st hb

theorem resolveMany_detect_succeeds (detect : Nat → Option Band)
    (linenoAt : Band → Nat → ℚ → Option Nat)
    (hdet : ∀ h, (detect h).isSome) :
    ∀ (ss : List (Option (Nat × ℚ))),
      (resolveMany detect linenoAt ⟨none⟩ ss).2.2 ≤ 1 := by
  intro ss
  induction ss with
  | nil => simp [resolveMany]
  | cons s ss ih =>
    cases s with
    | none =>
      simp only [resolveMany, resolve]
      omega
    | some pg =>
      simp only [resolveMany, resolve, ensure_band]
      cases hd : detect pg.1 with
      | none =>
        have := hdet pg.1
        rw [hd] at this
        simp at this
      | some b =>
        simp only []
        have := resolveMany_cached detect linenoAt b ss ⟨some b⟩ rfl
        omega

theorem resolveMany_detect_fails
    (linenoAt : Band → Nat → ℚ → Option Nat) :
    ∀ (ss : List (Option (Nat × ℚ))),
      ((resolveMany (fun _ => none) linenoAt ⟨none⟩ ss).2.2
        = (ss.filter Option.isSome).length) ∧
      (∀ out ∈ (resolveMany (fun _ => none) linenoAt ⟨none⟩ ss).1,
        out.2 = none) := by
  intro ss
  induction ss with
  | nil => exact ⟨rfl, by intro out h; simp [resolveMany] at h⟩
  | cons s ss ih =>
    cases s with
    | none =>
      simp only [resolveMany, resolve]
      constructor
      · simp [ih.1]
      · intro out hout
        rcases List.mem_cons.mp hout with heq | hm
        · rw [heq]
        · exact ih.2 out hm
    | some pg =>
      have hstep : resolveMany (fun _ => none) linenoAt ⟨none⟩ (some pg :: ss)
          = ((some pg.1, none) :: (resolveMany (fun _ => none) linenoAt ⟨none⟩ ss).1,
             (resolveMany (fun _ => none) linenoAt ⟨none⟩ ss).2.1,
             1 + (resolveMany (fun _ => none) linenoAt ⟨none⟩ ss).2.2) := rfl
      rw [hstep]
      constructor
      · simp only [List.filter_cons, Option.isSome_some, if_true, List.length_cons]
        rw [ih.1]
        omega
      · intro out hout
        rcases List.mem_cons.mp hout with heq | hm
        · rw [heq]
        · exact ih.2 out hm

/-- Claim C7, amended: the margin band is a per-resolver cache filled
on the first successful detection and reused by all later resolve
calls — once `_band` is set, detection never runs again, and if
detection succeeds whenever attempted, it runs at most once over any
sequence of calls.  When detection fails, the failure is treated as
"line numbers unavailable" for that occurrence (the page is still
reported), but the failure is not cached: a failing detection is
re-attempted on every subsequent resolve call whose synctex lookup
succeeds, once per such occurrence. -/
theorem claim_c7_amended :
    (∀ (detect : Nat → Option Band) (linenoAt : Band → Nat → ℚ → Option Nat)
        (b : Band) (ss : List (Option (Nat × ℚ))) (st : RState),
      st.band = some b →
      (resolveMany detect linenoAt st ss).2.2 = 0 ∧
      (resolveMany detect linenoAt st ss).2.1 = st) ∧
    (∀ (detect : Nat → Option Band) (linenoAt : Band → Nat → ℚ → Option Nat),
      (∀ h, (detect h).isSome) →
      ∀ (ss : List (Option (Nat × ℚ))),
        (resolveMany detect linenoAt ⟨none⟩ ss).2.2 ≤ 1) ∧
    (∀ (linenoAt : Band → Nat → ℚ → Option Nat) (ss : List (Option (Nat × ℚ))),
      ((resolveMany (fun _ => none) linenoAt ⟨none⟩ ss).2.2
        = (ss.filter Option.isSome).length) ∧
      (∀ out ∈ (resolveMany (fun _ => none) linenoAt ⟨none⟩ ss).1,
        out.2 = none)) :=
  ⟨fun detect linenoAt b ss st hb => resolveMany_cached detect linenoAt b ss st hb,
   fun detect linenoAt hdet ss => resolveMany_detect_succeeds detect linenoAt hdet ss,
   fun linenoAt ss => resolveMany_detect_fails linenoAt ss⟩

/-- Claim C7, witness: with a cached band no detection runs; with an
always-failing detector, two successful synctex calls attempt
detection twice and both report no line number. -/
theorem claim_c7_witness :
    ((resolveMany (fun _ => none) (fun _ _ _ => none)
        ⟨some ⟨Side.left, 0, 0, 10, 8, 100⟩⟩ [some (1, 0)]).2.2 = 0 ∧
     (resolveMany (fun _ => none) (fun _ _ _ => none)
        ⟨some ⟨Side.left, 0, 0, 10, 8, 100⟩⟩ [some (1, 0)]).2.1
       = ⟨some ⟨Side.left, 0, 0, 10, 8, 100⟩⟩) ∧
    ((resolveMany (fun _ => none) (fun _ _ _ => none) ⟨none⟩
        [some (1, 0), some (1, 0)]).2.2
      = (([some ((1 : Nat), (0 : ℚ)), some (1, 0)]).filter Option.isSome).length) := by
  constructor
  · exact claim_c7_amended.1 (fun _ => none) (fun _ _ _ => none)
      ⟨Side.left, 0, 0, 10, 8, 100⟩ [some (1, 0)]
      ⟨some ⟨Side.left, 0, 0, 10, 8, 100⟩⟩ rfl
  · exact (claim_c7_amended.2.2 (fun _ _ _ => none)
      [some (1, 0), some (1, 0)]).1

/-!
collect_refs.py: the BibTeX parser (`parse_bibtex`, `_read_braced`,
`_read_quoted`, `_read_value`, `_strip_inline_comments`).  All parsing
is total by construction; unterminated delimiters consume to the end of
the input. -/

/-- One parsed record (`BibEntry`), field names lower-cased. -/
structure BibEntry where
  entry_type : Chars
  key : Chars
  fields : List (Chars × Chars)
  order_index : Nat
deriving DecidableEq

/-- Depth-counting scan of `_read_braced` after the opening brace:
returns (content, rest after the matching close); an unterminated brace
consumes to end of input. -/
def rbAux : Nat → Chars → Chars × Chars
  | _, [] => ([], [])
  | depth, c :: cs =>
    if c = '}' then
      if depth = 1 then ([], cs)
      else
        let p := rbAux (depth - 1) cs
        (c :: p.1, p.2)
    else if c = '{' then
      let p := rbAux (depth + 1) cs
      (c :: p.1, p.2)
    else
      let p := rbAux depth cs
      (c :: p.1, p.2)

/-- `_read_braced(s, i)` on the text after the opening brace. -/
def read_braced (cs : Chars) : Chars × Chars := rbAux 1 cs

/-- Scan of `_read_quoted` carrying the previous character for the
escaped-quote check `s[j-1] != "\\"`; an unterminated quote consumes to
end of input. -/
def rqAux : Char → Chars → Chars × Chars
  | _, [] => ([], [])
  | prev, c :: cs =>
    if c = '"' ∧ prev ≠ '\\' then ([], cs)
    else
      let p := rqAux c cs
      (c :: p.1, p.2)

/-- `_read_quoted(s, i)` on the text after the opening quote (the
previous character is that quote). -/
def read_quoted (cs : Chars) : Chars × Chars := rqAux '"' cs

/-- `_read_value`: skip whitespace, then a braced, quoted or bare value
(the bare value runs to a comma or closing brace and is stripped). -/
def read_value (cs : Chars) : Chars × Chars :=
  let cs1 := cs.dropWhile isWs
  match cs1 with
  | [] => ([], [])
  | c :: cs' =>
    if c = '{' then read_braced cs'
    else if c = '"' then read_quoted cs'
    else
      let bare := cs1.takeWhile (fun d => decide (d ≠ ',') && decide (d ≠ '}'))
      (pystrip bare, cs1.drop bare.length)

/-- The field-name regex `([A-Za-z][A-Za-z0-9_\-]*)\s*=` at the current
position; returns the name and the text after the `=`. -/
def fieldNameAt (cs : Chars) : Option (Chars × Chars) :=
  match cs with
  | [] => none
  | c :: cs' =>
    if c.isAlpha then
      let restName := cs'.takeWhile (fun d => d.isAlphanum || d = '_' || d = '-')
      match (cs'.drop restName.length).dropWhile isWs with
      | '=' :: r => some (c :: restName, r)
      | _ => none
    else none

/-- Python dict assignment `fields[fname] = ...`: replace in place or
append. -/
def fieldsInsert : List (Chars × Chars) → Chars → Chars → List (Chars × Chars)
  | [], k, v => [(k, v)]
  | (k', v') :: m, k, v =>
    if k' = k then (k', v) :: m else (k', v') :: fieldsInsert m k v

/-- The `while k < len(fields_str)` field loop of `parse_bibtex`:
skip whitespace and commas, read a `name = value` pair (storing the
lower-cased name and stripped value), or skip to the next comma;
stop when neither is possible. -/
def parseFieldsGo : Nat → Chars → List (Chars × Chars) → List (Chars × Chars)
  | 0, _, fields => fields
  | fuel + 1, cs, fields =>
    let cs1 := cs.dropWhile (fun c => isWs c || c = ',')
    match cs1 with
    | [] => fields
    | _ =>
      match fieldNameAt cs1 with
      | some nr =>
        let v := read_value nr.2
        parseFieldsGo fuel v.2 (fieldsInsert fields (nr.1.map Char.toLower) (pystrip v.1))
      | none =>
        match cs1.dropWhile (fun c => decide (c ≠ ',')) with
        | [] => fields
        | _ :: rest => parseFieldsGo fuel rest fields

/-- The field loop over one record body's field region. -/
def parse_fields (cs : Chars) : List (Chars × Chars) :=
  parseFieldsGo (cs.length + 1) cs []

/-- The record-head regex `@([A-Za-z]+)\s*[\(\{]` after the `@`:
returns the entry type, the opening delimiter and the rest. -/
def atRegex (cs : Chars) : Option (Chars × Char × Chars) :=
  let name := cs.takeWhile Char.isAlpha
  if name = [] then none
  else
    match (cs.drop name.length).dropWhile isWs with
    | '{' :: r => some (name, '{', r)
    | '(' :: r => some (name, '(', r)
    | _ => none

/-- The depth scan over the record body from after the opening
delimiter; `none` models running off the end (unterminated record). -/
def bodyAux (oc cc : Char) : Nat → Chars → Option (Chars × Chars)
  | _, [] => none
  | depth, c :: cs =>
    if c = cc then
      if depth = 1 then some ([], cs)
      else
        match bodyAux oc cc (depth - 1) cs with
        | some p => some (c :: p.1, p.2)
        | none => none
    else if c = oc then
      match bodyAux oc cc (depth + 1) cs with
      | some p => some (c :: p.1, p.2)
      | none => none
    else
      match bodyAux oc cc depth cs with
      | some p => some (c :: p.1, p.2)
      | none => none

/-- The `while True` record loop of `parse_bibtex`: find the next `@`,
match the head regex, scan the balanced body, split it at the first
comma (a record with no comma is skipped), parse the fields. -/
def parseLoopGo : Nat → Chars → Nat → List BibEntry
  | 0, _, _ => []
  | fuel + 1, cs, orderIdx =>
    match cs.dropWhile (fun c => decide (c ≠ '@')) with
    | [] => []
    | _ :: afterAt =>
      match atRegex afterAt with
      | none => parseLoopGo fuel afterAt orderIdx
      | some r =>
        let cc := if r.2.1 = '{' then '}' else ')'
        match bodyAux r.2.1 cc 1 r.2.2 with
        | none => parseLoopGo fuel afterAt orderIdx
        | some br =>
          let body := pystrip br.1
          match body.dropWhile (fun c => decide (c ≠ ',')) with
          | [] => parseLoopGo fuel br.2 orderIdx
          | _ :: fieldsRegion =>
            let key := pystrip (body.takeWhile (fun c => decide (c ≠ ',')))
            ⟨r.1, key, parse_fields (pystrip fieldsRegion), orderIdx⟩
              :: parseLoopGo fuel br.2 (orderIdx + 1)

/-- `parse_bibtex`: strip inline comments, then run the record loop. -/
def parse_bibtex (bib_text : Chars) : List BibEntry :=
  parseLoopGo ((stripLineComments bib_text).length + 1)
    (stripLineComments bib_text) 0

theorem rbAux_unterminated :
    ∀ (cs : Chars) (d : Nat), 1 ≤ d →
      (∀ n, n ≤ cs.length →
        (cs.take n).count '}' + 1 ≤ d + (cs.take n).count '{') →
      rbAux d cs = (cs, []) := by
  intro cs
  induction cs with
  | nil => intro d _ _; rfl
  | cons c cs ih =>
    intro d hd hcount
    by_cases hc : c = '}'
    · subst hc
      have h1 := hcount 1 (by simp)
      simp [List.count_cons] at h1
      have hd2 : d ≠ 1 := by omega
      have hrec : rbAux (d - 1) cs = (cs, []) := by
        apply ih (d - 1) (by omega)
        intro n hn
        have := hcount (n + 1) (by simpa using hn)
        simp [List.take_succ_cons, List.count_cons] at this
        omega
      simp [rbAux, hd2, hrec]
    · by_cases hc2 : c = '{'
      · subst hc2
        have hrec : rbAux (d + 1) cs = (cs, []) := by
          apply ih (d + 1) (by omega)
          intro n hn
          have := hcount (n + 1) (by simpa using hn)
          simp [List.take_succ_cons, List.count_cons] at this
          omega
        simp [rbAux, hrec]
      · have hrec : rbAux d cs = (cs, []) := by
          apply ih d hd
          intro n hn
          have := hcount (n + 1) (by simpa using hn)
          simp [List.take_succ_cons, List.count_cons, hc, hc2] at this
          omega
        simp [rbAux, hc, hc2, hrec]

theorem read_braced_unterminated :
    ∀ cs : Chars,
      (∀ n, n ≤ cs.length →
        (cs.take n).count '}' ≤ (cs.take n).count '{') →
      read_braced cs = (cs, []) := by
  intro cs h
  exact rbAux_unterminated cs 1 (le_refl 1) (by intro n hn; have := h n hn; omega)

theorem rqAux_unterminated :
    ∀ (cs : Chars) (prev : Char),
      (∀ a b, cs = a ++ '"' :: b → (if a = [] then prev else a.getLastD ' ') = '\\') →
      rqAux prev cs = (cs, []) := by
  intro cs
  induction cs with
  | nil => intro prev _; rfl
  | cons c cs ih =>
    intro prev hq
    have hnext : ∀ a b, cs = a ++ '"' :: b →
        (if a = [] then c else a.getLastD ' ') = '\\' := by
      intro a b hab
      have := hq (c :: a) b (by simp [hab])
      cases a with
      | nil => simpa using this
      | cons a0 as => simp [List.getLastD_cons] at this ⊢; exact this
    have hrec := ih c hnext
    by_cases hc : c = '"'
    · have hprev := hq [] cs (by simp [hc])
      simp at hprev
      simp [rqAux, hprev, hrec]
    · simp [rqAux, hc, hrec]

theorem read_quoted_unterminated :
    ∀ cs : Chars,
      (∀ a b, cs = a ++ '"' :: b → a.getLastD '"' = '\\') →
      read_quoted cs = (cs, []) := by
  intro cs h
  apply rqAux_unterminated cs '"'
  intro a b hab
  have := h a b hab
  cases a with
  | nil => simp at this
  | cons a0 as => simpa using this

theorem takeWhile_all_append (p : Char → Bool) :
    ∀ (w : Chars) (x : Char) (r : Chars), (∀ c ∈ w, p c = true) → p x = false →
      ((w ++ x :: r).takeWhile p = w ∧ (w ++ x :: r).dropWhile p = x :: r) := by
  intro w
  induction w with
  | nil =>
    intro x r _ hx
    simp [List.takeWhile_cons, List.dropWhile_cons, hx]
  | cons c cs ih =>
    intro x r hall hx
    have hc : p c = true := hall c (by simp)
    obtain ⟨h1, h2⟩ := ih x r (fun d hd => hall d (by simp [hd])) hx
    constructor
    · rw [List.cons_append, List.takeWhile_cons_of_pos hc, h1]
    · rw [List.cons_append, List.dropWhile_cons_of_pos hc, h2]

theorem bodyAux_clean :
    ∀ body : Chars, '{' ∉ body → '}' ∉ body →
      bodyAux '{' '}' 1 (body ++ ['}']) = some (body, []) := by
  intro body
  induction body with
  | nil => intro _ _; rfl
  | cons c cs ih =>
    intro ho hcl
    have hc1 : c ≠ '}' := by intro h; exact hcl (by simp [h])
    have hc2 : c ≠ '{' := by intro h; exact ho (by simp [h])
    have ho' : '{' ∉ cs := by intro h; exact ho (by simp [h])
    have hcl' : '}' ∉ cs := by intro h; exact hcl (by simp [h])
    rw [List.cons_append]
    simp only [bodyAux]
    rw [if_neg hc1, if_neg hc2, ih ho' hcl']

theorem mem_pystrip (l : Chars) (c : Char) : c ∈ pystrip l → c ∈ l := by
  intro h
  unfold pystrip at h
  obtain ⟨t, ht, _⟩ := rstrip_decomp (l.dropWhile isWs)
  have h1 : c ∈ l.dropWhile isWs := by
    rw [ht]
    exact List.mem_append.mpr (Or.inl h)
  exact List.Sublist.subset (List.dropWhile_sublist _) h1

theorem parseLoopGo_nil (fuel idx : Nat) : parseLoopGo fuel [] idx = [] := by
  cases fuel <;> rfl

theorem parse_bibtex_no_comma_skipped (w body : Chars)
    (hw : w ≠ []) (hwa : ∀ c ∈ w, c.isAlpha = true)
    (hb : ∀ c ∈ body,
      c ≠ ',' ∧ c ≠ '{' ∧ c ≠ '}' ∧ c ≠ '%' ∧ c ≠ '\n' ∧ c ≠ '\r') :
    parse_bibtex ('@' :: w ++ '{' :: body ++ ['}']) = [] := by
  have hmem : ∀ x : Char, x ∈ ('@' :: w ++ '{' :: body ++ ['}']) →
      x = '@' ∨ x ∈ w ∨ x = '{' ∨ x ∈ body ∨ x = '}' := by
    intro x hx
    simp only [List.cons_append, List.mem_cons, List.mem_append,
      List.mem_singleton] at hx
    tauto
  have hstrip : stripLineComments ('@' :: w ++ '{' :: body ++ ['}'])
      = '@' :: w ++ '{' :: body ++ ['}'] := by
    apply stripLineComments_single_line
    · intro h
      rcases hmem _ h with h|h|h|h|h
      · exact absurd h (by decide)
      · exact absurd (hwa _ h) (by decide)
      · exact absurd h (by decide)
      · exact (hb _ h).2.2.2.2.1 rfl
      · exact absurd h (by decide)
    · intro h
      rcases hmem _ h with h|h|h|h|h
      · exact absurd h (by decide)
      · exact absurd (hwa _ h) (by decide)
      · exact absurd h (by decide)
      · exact (hb _ h).2.2.2.2.2 rfl
      · exact absurd h (by decide)
    · intro h
      rcases hmem _ h with h|h|h|h|h
      · exact absurd h (by decide)
      · exact absurd (hwa _ h) (by decide)
      · exact absurd h (by decide)
      · exact (hb _ h).2.2.2.1 rfl
      · exact absurd h (by decide)
  have hdropAt : ('@' :: (w ++ '{' :: (body ++ ['}']))).dropWhile
      (fun c => decide (c ≠ '@')) = '@' :: (w ++ '{' :: (body ++ ['}']))
    := List.dropWhile_cons_of_neg (by decide)
  have hat : atRegex (w ++ '{' :: (body ++ ['}'])) = some (w, '{', body ++ ['}']) := by
    obtain ⟨htake, h2⟩ :=
      takeWhile_all_append Char.isAlpha w '{' (body ++ ['}']) hwa (by decide)
    unfold atRegex
    rw [htake, if_neg hw]
    rw [show (w ++ '{' :: (body ++ ['}'])).drop w.length = '{' :: (body ++ ['}'])
      from List.drop_left _ _]
    rw [List.dropWhile_cons_of_neg (by decide)]
    rfl
  have hbodyAux : bodyAux '{' '}' 1 (body ++ ['}']) = some (body, []) := by
    apply bodyAux_clean
    · intro h; exact (hb _ h).2.1 rfl
    · intro h; exact (hb _ h).2.2.1 rfl
  have hnocomma : (pystrip body).dropWhile (fun c => decide (c ≠ ',')) = [] := by
    rw [List.dropWhile_eq_nil_iff]
    intro x hx
    exact decide_eq_true ((hb x (mem_pystrip body x hx)).1)
  unfold parse_bibtex
  rw [hstrip]
  simp only [List.cons_append, List.append_assoc, List.length_cons]
  simp only [parseLoopGo, hdropAt, hat, hbodyAux, hnocomma, if_true,
    parseLoopGo_nil, List.dropWhile_nil]

/-- Claim C9: `parse_bibtex` is total and degrades gracefully: a braced
value whose close brace never balances consumes to end of input, a quoted
value with no closing unescaped quote consumes to end of input, a record
whose body contains no comma separating the key from its fields is
skipped rather than fatal, and a trailing unterminated record still
yields the earlier complete records as a best-effort partial result. -/
theorem claim_c9_total_graceful :
    (∀ cs : Chars,
        (∀ n, n ≤ cs.length → (cs.take n).count '}' ≤ (cs.take n).count '{') →
        read_braced cs = (cs, []))
  ∧ (∀ cs : Chars,
        (∀ a b, cs = a ++ '"' :: b → a.getLastD '"' = '\\') →
        read_quoted cs = (cs, []))
  ∧ (∀ w body : Chars, w ≠ [] → (∀ c ∈ w, c.isAlpha = true) →
        (∀ c ∈ body,
          c ≠ ',' ∧ c ≠ '{' ∧ c ≠ '}' ∧ c ≠ '%' ∧ c ≠ '\n' ∧ c ≠ '\r') →
        parse_bibtex ('@' :: w ++ '{' :: body ++ ['}']) = [])
  ∧ parse_bibtex (str "@misc\x7bx, note = \x7ba \x7bb\x7d c\x7d, title = \"q\"\x7d @misc\x7by")
      = [⟨str "misc", str "x",
          [(str "note", str "a \x7bb\x7d c"), (str "title", str "q")], 0⟩] :=
  ⟨read_braced_unterminated, read_quoted_unterminated,
   parse_bibtex_no_comma_skipped, by rfl⟩

/-- Concrete instantiations of the C9 guarantees: an unterminated brace
and an untouched quote-free quoted value both consume to end of input,
and a record with no comma in its body parses to no entries. -/
theorem claim_c9_witness :
    read_braced (str "ab\x7bc") = (str "ab\x7bc", [])
  ∧ read_quoted (str "abc") = (str "abc", [])
  ∧ parse_bibtex ('@' :: str "misc" ++ '{' :: str "nokey" ++ ['}']) = [] := by
  refine ⟨claim_c9_total_graceful.1 _ (by decide),
          claim_c9_total_graceful.2.1 _ ?hq,
          claim_c9_total_graceful.2.2.1 (str "misc") (str "nokey")
            (by decide) (by decide) (by decide)⟩
  intro a b hab
  exfalso
  have hmem : ('"' : Char) ∈ str "abc" := by
    rw [hab]; exact List.mem_append.mpr (Or.inr (List.mem_cons_self _ _))
  exact absurd hmem (by decide)

/-- One entry of the `occ_list` payload of a card. -/
structure OccOut where
  file : Chars
  line : Nat
  pdfPage : Option Nat
  pdfLineno : Option Nat
  snippet : Chars
deriving DecidableEq

/-- One card of `build_output_data`'s result. -/
structure DisplayCard where
  key : Chars
  title : Chars
  authors : List Chars
  year : Option Nat
  doi : Option Chars
  url : Option Chars
  abstract : Chars
  occurrences : List OccOut
  firstOccurrence : Nat × Nat × Nat
  occScore : Nat
  bibIndex : Nat
  orderNum : Option Nat
deriving DecidableEq

/-- The `10**9` sentinel of `build_output_data`. -/
def bigN : Nat := 1000000000

/-- The `10**12` default of the `min(..., default=10**12)` fallback. -/
def bigSrc : Nat := 1000000000000

/-- `occurrences.get(k, [])`. -/
def lookupOccs : List (Chars × List Occ) → Chars → List Occ
  | [], _ => []
  | (k', v) :: m, k => if k' = k then v else lookupOccs m k

/-- Python tuple comparison `<` on the 3-tuples used for `best_order`. -/
def tripLt (x y : Nat × Nat × Nat) : Bool :=
  decide (x.1 < y.1) || (decide (x.1 = y.1) &&
    (decide (x.2.1 < y.2.1) ||
     (decide (x.2.1 = y.2.1) && decide (x.2.2 < y.2.2))))

/-- `occ_order = (page or 10**9, printed or 10**9, ln)` for one
occurrence under a resolver. -/
def occOrderOf (resolve : Chars → Nat → Nat → Option Nat × Option Nat)
    (o : Occ) : Nat × Nat × Nat :=
  let pr := resolve o.file o.line o.col
  (pr.1.getD bigN, pr.2.getD bigN, o.line)

/-- The `if best_order is None or occ_order < best_order` loop. -/
def bestOrderLoop (resolve : Chars → Nat → Nat → Option Nat × Option Nat)
    (occs : List Occ) : Option (Nat × Nat × Nat) :=
  occs.foldl (fun best o =>
    let ord := occOrderOf resolve o
    match best with
    | none => some ord
    | some b => if tripLt ord b then some ord else some b) none

/-- `min((int(o["line"]) for o in occs), default=10**12)`. -/
def minLineOf (occs : List Occ) : Nat :=
  match occs.map Occ.line with
  | [] => bigSrc
  | x :: xs => xs.foldl Nat.min x

/-- `best_order` of one card: the loop minimum when a resolver ran, the
`(10**9, 10**9, min_src)` fallback otherwise. -/
def bestOrder (resolver : Option (Chars → Nat → Nat → Option Nat × Option Nat))
    (occs : List Occ) : Nat × Nat × Nat :=
  match resolver with
  | some resolve => (bestOrderLoop resolve occs).getD (bigN, bigN, minLineOf occs)
  | none => (bigN, bigN, minLineOf occs)

/-- One `occ_list` entry (the resolver resolves page and printed line). -/
def mkOccOut (absP : Chars → Chars)
    (resolver : Option (Chars → Nat → Nat → Option Nat × Option Nat))
    (o : Occ) : OccOut :=
  match resolver with
  | none => ⟨absP o.file, o.line, none, none, o.snippet⟩
  | some resolve =>
    let pr := resolve o.file o.line o.col
    ⟨absP o.file, o.line, pr.1, pr.2, o.snippet⟩

/-- Characters stripped off a DOI by `doi.strip("\x7b\x7d \t\r\n")`. -/
def doiStripChars : Chars := ['{', '}', ' ', '\t', '\r', '\n']

/-- Python `str.strip(chars)`: drop the given characters at both ends. -/
def stripChars (set : Chars) (l : Chars) : Chars :=
  ((l.dropWhile (fun c => decide (c ∈ set))).reverse.dropWhile
    (fun c => decide (c ∈ set))).reverse

/-- The leftmost `\d\x7b4\x7d` match (ASCII digits) of the year regex. -/
def findFour : Chars → Option Chars
  | [] => none
  | c :: cs =>
    match c :: cs with
    | a :: b :: c' :: d :: _ =>
      if a.isDigit && b.isDigit && c'.isDigit && d.isDigit then some [a, b, c', d]
      else findFour cs
    | _ => none

/-- `year`: first four-digit run of the year field, if any. -/
def yearOf (fields : FS) : Option Nat :=
  match lookupFS fields (str "year") with
  | none => none
  | some [] => none
  | some ys => (findFour ys).map natOfDigits

/-- A match of `\s+\band\b\s+` starting at the current position: returns
the rest after the separator (both `\s+` are maximal-munch; no
backtracking can succeed because `a` and the following text are not
whitespace). -/
def andSplitAt (cs : Chars) : Option Chars :=
  let w1 := cs.takeWhile isWs
  if w1 = [] then none
  else
    match cs.drop w1.length with
    | 'a' :: 'n' :: 'd' :: rest =>
      let w2 := rest.takeWhile isWs
      if w2 = [] then none else some (rest.drop w2.length)
    | _ => none

/-- `re.split` on the author separator: cut at each leftmost match. -/
def splitAndGo : Nat → Chars → Chars → List Chars
  | 0, acc, _ => [acc.reverse]
  | fuel + 1, acc, cs =>
    match cs with
    | [] => [acc.reverse]
    | c :: rest =>
      match andSplitAt cs with
      | some rest' => acc.reverse :: splitAndGo fuel [] rest'
      | none => splitAndGo fuel (c :: acc) rest

/-- `split_authors`: empty or missing field gives `[]`; otherwise split
on the separator, strip each part, drop empties, map through
`latex_to_unicode` (a parameter here). -/
def split_authors (l2u : Chars → Chars) (af : Option Chars) : List Chars :=
  match af with
  | none => []
  | some [] => []
  | some s =>
    (splitAndGo (s.length + 1) [] s).filterMap (fun p =>
      let q := pystrip p
      if q = [] then none else some (l2u q))

/-- One card of the `for be in bib_entries` loop body (reached only when
the entry has occurrences). -/
def mkCard (l2u absP : Chars → Chars)
    (resolver : Option (Chars → Nat → Nat → Option Nat × Option Nat))
    (citNums : Option (List (Chars × Nat)))
    (be : BibEntry) (occs : List Occ) : DisplayCard :=
  let bo := bestOrder resolver occs
  { key := be.key
    title := l2u ((lookupFS be.fields (str "title")).getD [])
    authors := split_authors l2u (lookupFS be.fields (str "author"))
    year := yearOf be.fields
    doi :=
      match (lookupFS be.fields (str "doi")).getD [] with
      | [] => none
      | ds => match pystrip ds with
              | [] => none
              | ds' => some (stripChars doiStripChars ds')
    url :=
      match (lookupFS be.fields (str "url")).getD [] with
      | [] => none
      | us => match pystrip us with
              | [] => none
              | us' => some us'
    abstract := l2u ((lookupFS be.fields (str "abstract")).getD [])
    occurrences := occs.map (mkOccOut absP resolver)
    firstOccurrence := bo
    occScore := bo.1 * 1000000 + bo.2.1 * 1000 + bo.2.2
    bibIndex := be.order_index
    orderNum :=
      match citNums with
      | none => none
      | some m => lookupNum m be.key }

/-- The card-building loop: entries whose occurrence list is empty are
skipped (`if not occs: continue`). -/
def mkCards (l2u absP : Chars → Chars)
    (resolver : Option (Chars → Nat → Nat → Option Nat × Option Nat))
    (citNums : Option (List (Chars × Nat)))
    (bib_entries : List BibEntry)
    (occurrences : List (Chars × List Occ)) : List DisplayCard :=
  bib_entries.filterMap (fun be =>
    match lookupOccs occurrences be.key with
    | [] => none
    | os => some (mkCard l2u absP resolver citNums be os))

/-- Python string `<` (code-point lexicographic, prefix first). -/
def charsLt : Chars → Chars → Bool
  | [], [] => false
  | [], _ :: _ => true
  | _ :: _, [] => false
  | a :: as, b :: bs => decide (a < b) || (decide (a = b) && charsLt as bs)

/-- The sort key comparison `(firstOccurrence, bibIndex, key) <`. -/
def cardLt (x y : DisplayCard) : Bool :=
  tripLt x.firstOccurrence y.firstOccurrence ||
  (decide (x.firstOccurrence = y.firstOccurrence) &&
    (decide (x.bibIndex < y.bibIndex) ||
     (decide (x.bibIndex = y.bibIndex) && charsLt x.key y.key)))

/-- Strict-less on card indices through the sort key. -/
def idxLt (cards : List DisplayCard) (i j : Nat) : Bool :=
  match cards[i]?, cards[j]? with
  | some x, some y => cardLt x y
  | _, _ => false

/-- Stable insertion (a new index goes after every earlier index whose
key is not strictly greater, reproducing `sorted`'s stability). -/
def insertIdx (cards : List DisplayCard) (i : Nat) : List Nat → List Nat
  | [] => [i]
  | j :: js => if idxLt cards i j then i :: j :: js else j :: insertIdx cards i js

/-- `cards_sorted_idx = sorted(range(len(cards)), key=...)`. -/
def sortedIdx (cards : List DisplayCard) : List Nat :=
  (List.range cards.length).foldl (fun acc i => insertIdx cards i acc) []

/-- `while next_num in used: next_num += 1`; the fuel `used.length + 1`
always suffices because each skipped value is a distinct member of
`used`. -/
def firstFree (used : List Nat) : Nat → Nat → Nat
  | start, 0 => start
  | start, fuel + 1 => if start ∈ used then firstFree used (start + 1) fuel else start

/-- The fill loop: walk the sorted indices and give each card without an
`orderNum` the smallest unused positive number. -/
def fillGo : List Nat → List DisplayCard → List Nat → Nat → List DisplayCard
  | [], cards, _, _ => cards
  | i :: is, cards, used, next =>
    match cards[i]? with
    | none => fillGo is cards used next
    | some c =>
      match c.orderNum with
      | some _ => fillGo is cards used next
      | none =>
        let n := firstFree used next (used.length + 1)
        fillGo is (cards.set i { c with orderNum := some n }) (n :: used) (n + 1)

/-- `build_output_data`: build one card per cited entry, then fill the
missing `orderNum`s in sorted order (`latex_to_unicode` and the absolute
path resolution are parameters). -/
def build_output_data (bib_entries : List BibEntry)
    (occurrences : List (Chars × List Occ))
    (resolver : Option (Chars → Nat → Nat → Option Nat × Option Nat))
    (cit_numbers : Option (List (Chars × Nat)))
    (l2u absP : Chars → Chars) : List DisplayCard :=
  let cards := mkCards l2u absP resolver cit_numbers bib_entries occurrences
  fillGo (sortedIdx cards) cards (cards.filterMap (fun c => c.orderNum)) 1

theorem mem_mkCards_key (l2u absP : Chars → Chars)
    (resolver : Option (Chars → Nat → Nat → Option Nat × Option Nat))
    (citNums : Option (List (Chars × Nat)))
    (bib : List BibEntry) (occurrences : List (Chars × List Occ)) :
    ∀ c ∈ mkCards l2u absP resolver citNums bib occurrences,
      lookupOccs occurrences c.key ≠ [] := by
  intro c hc
  obtain ⟨be, _, hbe⟩ := List.mem_filterMap.mp hc
  cases hos : lookupOccs occurrences be.key with
  | nil => rw [hos] at hbe; exact absurd hbe (by simp)
  | cons o os =>
    rw [hos] at hbe
    simp only [Option.some.injEq] at hbe
    have hkey : c.key = be.key := by rw [← hbe]; rfl
    rw [hkey, hos]
    simp

theorem mem_fillGo_key :
    ∀ (idxs : List Nat) (cards : List DisplayCard) (used : List Nat) (next : Nat),
      ∀ c ∈ fillGo idxs cards used next, ∃ c₀ ∈ cards, c.key = c₀.key := by
  intro idxs
  induction idxs with
  | nil => intro cards used next c hc; exact ⟨c, hc, rfl⟩
  | cons i is ih =>
    intro cards used next c hc
    rw [fillGo] at hc
    split at hc
    · exact ih _ _ _ c hc
    · rename_i c0 hci
      split at hc
      · exact ih _ _ _ c hc
      · obtain ⟨c₁, hc₁, hkey⟩ := ih _ _ _ c hc
        rcases List.mem_or_eq_of_mem_set hc₁ with hmem | heq
        · exact ⟨c₁, hmem, hkey⟩
        · exact ⟨c0, List.getElem?_mem hci, by rw [hkey, heq]⟩

/-- Claim C10: a bibliography record with zero occurrences in the
scanned source is excluded from the output: every card of
`build_output_data` carries a key with a non-empty occurrence list, so
no card is produced for a key whose occurrence list is empty. -/
theorem claim_c10_uncited_excluded (l2u absP : Chars → Chars)
    (resolver : Option (Chars → Nat → Nat → Option Nat × Option Nat))
    (citNums : Option (List (Chars × Nat)))
    (bib : List BibEntry) (occurrences : List (Chars × List Occ)) :
    (∀ card ∈ build_output_data bib occurrences resolver citNums l2u absP,
        lookupOccs occurrences card.key ≠ [])
  ∧ (∀ k, lookupOccs occurrences k = [] →
      ∀ card ∈ build_output_data bib occurrences resolver citNums l2u absP,
        card.key ≠ k) := by
  have hmain : ∀ card ∈ build_output_data bib occurrences resolver citNums l2u absP,
      lookupOccs occurrences card.key ≠ [] := by
    intro card hcard
    unfold build_output_data at hcard
    obtain ⟨c₀, hc₀, hkey⟩ := mem_fillGo_key _ _ _ _ card hcard
    rw [hkey]
    exact mem_mkCards_key l2u absP resolver citNums bib occurrences c₀ hc₀
  refine ⟨hmain, ?_⟩
  intro k hk card hcard hkeq
  exact hmain card hcard (hkeq ▸ hk)

/-- Concrete bibliography for the C10 witness: entry `x` is cited once,
entry `y` never. -/
def bibW : List BibEntry :=
  [⟨str "misc", str "x", [], 0⟩, ⟨str "misc", str "y", [], 1⟩]

/-- The single occurrence map of the C10 witness. -/
def occW : List (Chars × List Occ) :=
  [(str "x", [⟨str "m.tex", 1, 1, str "s"⟩])]

/-- The one card the C10 witness instance produces. -/
def cardW : DisplayCard :=
  ⟨str "x", [], [], none, none, none, [],
   [⟨str "m.tex", 1, none, none, str "s"⟩],
   (bigN, bigN, 1), bigN * 1000000 + bigN * 1000 + 1, 0, some 1⟩

/-- Concrete instantiation of C10: the uncited entry `y` yields no card
in a run where `x`'s card is produced. -/
theorem claim_c10_witness :
    lookupOccs occW (str "y") = []
  ∧ cardW ∈ build_output_data bibW occW none none (fun s => s) (fun s => s)
  ∧ cardW.key ≠ str "y" :=
  ⟨by decide, by decide,
   (claim_c10_uncited_excluded (fun s => s) (fun s => s) none none bibW occW).2
     (str "y") (by decide) cardW (by decide)⟩

end Refc
